import Mathlib

/-!
Verification of the export-name registry and project-converter core of the
`tools` repository (source: `src/es6-module-utils.ts`, which carries both the
`getOrSetBundleModuleExportName` / `getModuleExportNames` registry helpers and
the `ProjectConverter` class).

JavaScript strings are modelled as `List Char` (`JStr`) in the registry
component, where character-level operations (regex replacement, suffix
parsing) matter, and as Lean `String` in the converter component, where
strings are only used as opaque keys and messages.  JavaScript `Map` objects
are modelled as association lists that keep insertion order: `Map.get` is
`lookupA`, and `Map.set` is `setA`, which updates an existing key in place
and appends a missing key at the end, exactly like the JavaScript `Map`.
JavaScript numbers produced by `parseInt` on a digit string are modelled as
exact naturals (the float rounding that starts at 2^53 is out of scope).
-/

namespace EsModuleUtils

/-- JavaScript string, modelled as its list of characters. -/
abbrev JStr := List Char

/-- Character list of a Lean string literal, for readable inputs. -/
def js (s : String) : JStr := s.data

/-- `Map.get`: first (and, for well-formed maps, only) binding of key `k`. -/
def lookupA {κ α : Type} [DecidableEq κ] : List (κ × α) → κ → Option α
  | [], _ => none
  | (a, b) :: t, k => if a = k then some b else lookupA t k

/-- `Map.set`: update an existing key in place, append a missing key. -/
def setA {κ α : Type} [DecidableEq κ] : List (κ × α) → κ → α → List (κ × α)
  | [], k, v => [(k, v)]
  | (a, b) :: t, k, v => if a = k then (k, v) :: t else (a, b) :: setA t k v

/-- Concatenation of a list of lists (the flattening used to scan
`[...bundledExports.values()]`). -/
def concatAll {α : Type} : List (List α) → List α
  | [] => []
  | x :: xs => x ++ concatAll xs

/-- The character class `[0-9]` of the suffix regexes. -/
def isDigitC (c : Char) : Bool := '0' ≤ c && c ≤ '9'

/-- The character class `[a-z0-9_]` with the `/i` flag, i.e. `[a-zA-Z0-9_]`,
used by the sanitizing replacement in `getOrSetBundleModuleExportName`. -/
def isIdentC (c : Char) : Bool :=
  ('a' ≤ c && c ≤ 'z') || ('A' ≤ c && c ≤ 'Z') || ('0' ≤ c && c ≤ '9') || c = '_'

/-- One character of `.replace(/[^a-z0-9_]/gi, '$')`. -/
def sanitizeChar (c : Char) : Char := if isIdentC c then c else '$'

/-- `.replace(/[^a-z0-9_]/gi, '$')`: every character outside `[a-zA-Z0-9_]`
is replaced by `'$'`.  (A JavaScript astral character is two UTF-16 units and
would yield two `'$'`; here it is one scalar yielding one `'$'`, which does
not affect any property proved below.) -/
def sanitize (l : JStr) : JStr := l.map sanitizeChar

/-- Longest suffix of `l` whose characters all satisfy `p`. -/
def trailRun (p : Char → Bool) (l : JStr) : JStr := (l.reverse.takeWhile p).reverse

/-- `l` with its `trailRun p` suffix removed. -/
def stripRun (p : Char → Bool) (l : JStr) : JStr := (l.reverse.dropWhile p).reverse

/-- Decimal digit characters `'0'`-`'9'`. -/
def decDigit : Nat → Char
  | 0 => '0' | 1 => '1' | 2 => '2' | 3 => '3' | 4 => '4'
  | 5 => '5' | 6 => '6' | 7 => '7' | 8 => '8' | _ => '9'

/-- Fueled worker for `natDigs`; any fuel above the value itself is enough. -/
def natDigsGo : Nat → Nat → JStr
  | 0, _ => []
  | fuel + 1, n => if n < 10 then [decDigit n] else natDigsGo fuel (n / 10) ++ [decDigit (n % 10)]

/-- Decimal rendering of a natural number (the `Number.prototype.toString`
output for the exact values arising from `parseInt(v) + 1`). -/
def natDigs (n : Nat) : JStr := natDigsGo (n + 1) n

/-- `parseInt` on a digit string: decimal value, leading zeros allowed. -/
def parseNat (l : JStr) : Nat := l.foldl (fun a c => 10 * a + (c.toNat - 48)) 0

/-- Modelled from the spec: the module's file name, i.e. the part of the URL
after the last `/` (`getFileName` lives in `./url-utils`, which is not among
the sources). -/
def getFileName (url : JStr) : JStr := (url.reverse.takeWhile (fun c => c ≠ '/')).reverse

/-- `.replace(/\.[a-z0-9_]+$/, '')` (case-sensitive, no `/i` flag): strip a
trailing dot-extension whose characters are all in `[a-z0-9_]`. -/
def isExtC (c : Char) : Bool := ('a' ≤ c && c ≤ 'z') || ('0' ≤ c && c ≤ '9') || c = '_'

/-- Strip a trailing `.ext` (nonempty, all `[a-z0-9_]`) from a file name. -/
def stripExt (l : JStr) : JStr :=
  let run := trailRun isExtC l
  let rest := stripRun isExtC l
  if run ≠ [] ∧ rest.getLast? = some '.' then rest.dropLast else l

/-- Modelled from the spec: camel-casing of the remaining file-name text
(hyphen-separated words joined, the letter after each hyphen capitalised);
the real `camelCase` lives in `./utils`, which is not among the sources. -/
def camelCase : JStr → JStr
  | [] => []
  | '-' :: c :: rest => c.toUpper :: camelCase rest
  | c :: rest => c :: camelCase rest

/-- The trial-name computation of `getOrSetBundleModuleExportName` lines
37-43: `'$' + camelCase(getFileName(moduleUrl).replace(/\.[a-z0-9_]+$/, ''))`
is the module-scoped prefix; the chained replaces first rewrite a whole-string
`default` / `*`, then sanitize every character.  (The first replacement string
contains no active `$&`-style escape for the file names the model produces,
so it is plain substitution.) -/
def computeTrialName (moduleUrl name : JStr) : JStr :=
  let moduleFileNameIdentifier := '$' :: camelCase (stripExt (getFileName moduleUrl))
  let t1 := if name = js "default" then moduleFileNameIdentifier ++ js "Default" else name
  let t2 := if t1 = ['*'] then moduleFileNameIdentifier else t1
  sanitize t2

/-- `trialName.match(/\$[0-9]+$/)`: the string ends with `'$'` followed by at
least one digit. -/
def hasDollarNum (l : JStr) : Bool :=
  decide (trailRun isDigitC l ≠ []) && decide ((stripRun isDigitC l).getLast? = some '$')

/-- One mutation step of the collision loop (lines 49-53): a trailing
`$<integer>` suffix is incremented (`parseInt(v) + 1`), otherwise `$1` is
appended. -/
def nextTrial (l : JStr) : JStr :=
  if hasDollarNum l then
    stripRun isDigitC l ++ natDigs (parseNat (trailRun isDigitC l) + 1)
  else l ++ ['$', '1']

/-- The bundle's `bundledExports` map: module URL → (original name → assigned
name), both levels in insertion order. -/
abbrev BundledExports := List (JStr × List (JStr × JStr))

/-- `[...bundledExports.values()]` flattened: every name already assigned
anywhere in the bundle. -/
def allAssigned (be : BundledExports) : List JStr :=
  concatAll (be.map (fun me => me.2.map (fun p => p.2)))

/-- The collision loop (lines 44-55), with explicit fuel standing for the
unbounded `while`.  The membership test is checked first, as in the source;
when the trial name is free but empty, the JavaScript loop never exits
(`exportName = ''` stays falsy), which the model renders as `none`. -/
def findFree (taken : List JStr) : Nat → JStr → Option JStr
  | 0, _ => none
  | fuel + 1, t =>
    if t ∈ taken then findFree taken fuel (nextTrial t)
    else if t = [] then none
    else some t

/-- `moduleExports.set(name, exportName)` for a module already present in
`bundledExports` (the function below ensures this before calling).  The `[]`
case is unreachable there and returns the bundle unchanged. -/
def setModuleName : BundledExports → JStr → JStr → JStr → BundledExports
  | [], _, _, _ => []
  | (a, mp) :: t, m, n, r =>
    if a = m then (a, setA mp n r) :: t else (a, mp) :: setModuleName t m n r

/-- The un-memoized branch of `getOrSetBundleModuleExportName` (lines 36-56):
compute the trial name, run the collision loop over every assigned name of
the bundle, and record the result. -/
def assignFresh (be : BundledExports) (moduleUrl name : JStr) :
    Option (JStr × BundledExports) :=
  let trial := computeTrialName moduleUrl name
  let taken := allAssigned be
  match findFree taken (taken.length + 2) trial with
  | none => none
  | some r => some (r, setModuleName be moduleUrl name r)

/-- `getOrSetBundleModuleExportName` (lines 27-59).  A missing module entry is
created first (`bundledExports.set(moduleUrl, new Map())`); the memo test is
`if (!exportName)`, so both a missing binding and a falsy empty-string
binding fall through to the fresh computation.  `none` models the
non-terminating loop. -/
def getOrSetBundleModuleExportName (be : BundledExports) (moduleUrl name : JStr) :
    Option (JStr × BundledExports) :=
  let be1 := if lookupA be moduleUrl = none then setA be moduleUrl [] else be
  let moduleExports := (lookupA be1 moduleUrl).getD []
  match lookupA moduleExports name with
  | some e => if e = [] then assignFresh be1 moduleUrl name else some (e, be1)
  | none => assignFresh be1 moduleUrl name

/-- A sequence of resolve-or-assign calls: the returned names in order and the
final bundle state; `none` if some call never terminates. -/
def runCalls (be : BundledExports) : List (JStr × JStr) → Option (List JStr × BundledExports)
  | [] => some ([], be)
  | (m, n) :: rest =>
    match getOrSetBundleModuleExportName be m n with
    | none => none
    | some (r, be1) =>
      match runCalls be1 rest with
      | none => none
      | some (rs, be2) => some (r :: rs, be2)

/-- Assigned name of `(moduleUrl, name)` in a bundle state. -/
def lookupAssigned (be : BundledExports) (m n : JStr) : Option JStr :=
  match lookupA be m with
  | none => none
  | some mp => lookupA mp n

instance : DecidableEq (List JStr × BundledExports) := instDecidableEqProd

instance : DecidableEq (JStr × BundledExports) := instDecidableEqProd

/-! ### Facts about decimal rendering and parsing -/

theorem natDigsGo_irrel (n : Nat) : ∀ f f', n < f → n < f' → natDigsGo f n = natDigsGo f' n := by
  induction n using Nat.strong_induction_on with
  | _ n ih =>
    intro f f' hf hf'
    obtain ⟨fa, rfl⟩ : ∃ fa, f = fa + 1 := ⟨f - 1, by omega⟩
    obtain ⟨fb, rfl⟩ : ∃ fb, f' = fb + 1 := ⟨f' - 1, by omega⟩
    by_cases h10 : n < 10
    · simp [natDigsGo, h10]
    · have hlt : n / 10 < n := Nat.div_lt_self (by omega) (by omega)
      simp [natDigsGo, h10, ih (n / 10) hlt fa fb (by omega) (by omega)]

theorem natDigs_eq (n : Nat) :
    natDigs n = if n < 10 then [decDigit n] else natDigs (n / 10) ++ [decDigit (n % 10)] := by
  by_cases h10 : n < 10
  · simp only [natDigs, natDigsGo, h10, if_true]
  · have hlt : n / 10 < n := Nat.div_lt_self (by omega) (by omega)
    simp only [h10, if_false]
    show natDigsGo (n + 1) n = natDigs (n / 10) ++ [decDigit (n % 10)]
    rw [show natDigsGo (n + 1) n = natDigsGo n (n / 10) ++ [decDigit (n % 10)] from by
      simp [natDigsGo, h10]]
    rw [natDigs, natDigsGo_irrel (n / 10) n (n / 10 + 1) (by omega) (by omega)]

theorem decDigit_toNat {k : Nat} (h : k < 10) : (decDigit k).toNat - 48 = k := by
  interval_cases k <;> decide

theorem decDigit_digit {k : Nat} (h : k < 10) : isDigitC (decDigit k) = true := by
  interval_cases k <;> decide

theorem natDigs_ne_nil (n : Nat) : natDigs n ≠ [] := by
  rw [natDigs_eq]
  by_cases h10 : n < 10 <;> simp [h10]

theorem natDigs_digits (n : Nat) : ∀ c ∈ natDigs n, isDigitC c = true := by
  induction n using Nat.strong_induction_on with
  | _ n ih =>
    rw [natDigs_eq]
    by_cases h10 : n < 10
    · simp only [h10, if_true]
      intro c hc
      rw [List.mem_singleton] at hc
      exact hc ▸ decDigit_digit h10
    · have hlt : n / 10 < n := Nat.div_lt_self (by omega) (by omega)
      simp only [h10, if_false]
      intro c hc
      rcases List.mem_append.mp hc with h | h
      · exact ih (n / 10) hlt c h
      · rw [List.mem_singleton] at h
        exact h ▸ decDigit_digit (by omega)

theorem parseNat_append_digit (xs : JStr) (c : Char) :
    parseNat (xs ++ [c]) = 10 * parseNat xs + (c.toNat - 48) := by
  simp [parseNat, List.foldl_append]

theorem parse_natDigs (n : Nat) : parseNat (natDigs n) = n := by
  induction n using Nat.strong_induction_on with
  | _ n ih =>
    rw [natDigs_eq]
    by_cases h10 : n < 10
    · simp only [h10, if_true]
      show 10 * 0 + ((decDigit n).toNat - 48) = n
      rw [decDigit_toNat h10]; omega
    · have hlt : n / 10 < n := Nat.div_lt_self (by omega) (by omega)
      simp only [h10, if_false]
      rw [parseNat_append_digit, ih (n / 10) hlt, decDigit_toNat (by omega)]
      omega

theorem natDigs_inj {a b : Nat} (h : natDigs a = natDigs b) : a = b := by
  have := congrArg parseNat h
  rwa [parse_natDigs, parse_natDigs] at this

/-! ### Facts about trailing runs -/

theorem takeWhile_all_append {p : Char → Bool} {xs : JStr} (ys : JStr)
    (h : ∀ x ∈ xs, p x = true) : (xs ++ ys).takeWhile p = xs ++ ys.takeWhile p := by
  induction xs with
  | nil => simp
  | cons a t iht =>
    rw [List.cons_append, List.takeWhile_cons, if_pos (h a (by simp))]
    rw [iht (fun x hx => h x (by simp [hx])), List.cons_append]

theorem dropWhile_all_append {p : Char → Bool} {xs : JStr} (ys : JStr)
    (h : ∀ x ∈ xs, p x = true) : (xs ++ ys).dropWhile p = ys.dropWhile p := by
  induction xs with
  | nil => simp
  | cons a t iht =>
    rw [List.cons_append, List.dropWhile_cons, if_pos (h a (by simp))]
    exact iht (fun x hx => h x (by simp [hx]))

theorem strip_append_trail (p : Char → Bool) (l : JStr) :
    stripRun p l ++ trailRun p l = l := by
  unfold stripRun trailRun
  rw [← List.reverse_append, List.takeWhile_append_dropWhile, List.reverse_reverse]

theorem trail_strip_append (B' D : JStr) (hD : ∀ c ∈ D, isDigitC c = true) :
    trailRun isDigitC (B' ++ '$' :: D) = D ∧
      stripRun isDigitC (B' ++ '$' :: D) = B' ++ ['$'] := by
  have h1 : (B' ++ '$' :: D).reverse = D.reverse ++ '$' :: B'.reverse := by
    simp
  have hDr : ∀ x ∈ D.reverse, isDigitC x = true := fun x hx => hD x (List.mem_reverse.mp hx)
  constructor
  · unfold trailRun
    rw [h1, takeWhile_all_append _ hDr, List.takeWhile_cons, if_neg (by decide)]
    simp
  · unfold stripRun
    rw [h1, dropWhile_all_append _ hDr, List.dropWhile_cons, if_neg (by decide)]
    simp

theorem hasDollarNum_iterG (B' : JStr) (n : Nat) :
    hasDollarNum (B' ++ '$' :: natDigs n) = true := by
  obtain ⟨h1, h2⟩ := trail_strip_append B' (natDigs n) (natDigs_digits n)
  simp [hasDollarNum, h1, h2, natDigs_ne_nil n, List.getLast?_concat]

theorem nextTrial_iterG (B' : JStr) (n : Nat) :
    nextTrial (B' ++ '$' :: natDigs n) = B' ++ '$' :: natDigs (n + 1) := by
  obtain ⟨h1, h2⟩ := trail_strip_append B' (natDigs n) (natDigs_digits n)
  rw [nextTrial, if_pos (hasDollarNum_iterG B' n), h1, h2, parse_natDigs]
  simp

theorem exists_of_getLast? {α : Type} : ∀ {l : List α} {a : α},
    l.getLast? = some a → ∃ l', l = l' ++ [a] := by
  intro l
  induction l with
  | nil => intro a h; simp at h
  | cons x t iht =>
    intro a h
    match t with
    | [] =>
      simp [List.getLast?] at h
      exact ⟨[], by simp [h]⟩
    | y :: t' =>
      rw [List.getLast?_cons_cons] at h
      obtain ⟨l', hl'⟩ := iht h
      exact ⟨x :: l', by simp [hl']⟩

theorem hasDollarNum_dest {t : JStr} (h : hasDollarNum t = true) :
    ∃ S, stripRun isDigitC t = S ++ ['$'] ∧ trailRun isDigitC t ≠ [] := by
  simp only [hasDollarNum, Bool.and_eq_true, decide_eq_true_eq] at h
  obtain ⟨S, hS⟩ := exists_of_getLast? h.2
  exact ⟨S, hS, h.1⟩

theorem nextTrial_shape (t : JStr) : ∃ B' n, nextTrial t = B' ++ '$' :: natDigs n := by
  by_cases h : hasDollarNum t = true
  · obtain ⟨S, hS, _⟩ := hasDollarNum_dest h
    refine ⟨S, parseNat (trailRun isDigitC t) + 1, ?_⟩
    rw [nextTrial, if_pos h, hS]
    simp
  · refine ⟨t, 1, ?_⟩
    rw [nextTrial, if_neg h]
    rfl

theorem nextTrial_ne_nil (t : JStr) : nextTrial t ≠ [] := by
  obtain ⟨B', n, he⟩ := nextTrial_shape t
  rw [he]
  simp

/-! ### The collision loop terminates whenever the trial name is nonempty -/

/-- The successive trial names tried by the collision loop. -/
def iterateTrial (t : JStr) : Nat → JStr
  | 0 => t
  | k + 1 => iterateTrial (nextTrial t) k

theorem iterateTrial_iterG (B' : JStr) : ∀ (k n : Nat),
    iterateTrial (B' ++ '$' :: natDigs n) k = B' ++ '$' :: natDigs (n + k) := by
  intro k
  induction k with
  | zero => intro n; rfl
  | succ k ihk =>
    intro n
    show iterateTrial (nextTrial (B' ++ '$' :: natDigs n)) k = _
    rw [nextTrial_iterG, ihk (n + 1)]
    ring_nf

theorem iterG_inj {B' : JStr} {a b : Nat}
    (h : B' ++ '$' :: natDigs a = B' ++ '$' :: natDigs b) : a = b := by
  have h2 := List.append_cancel_left h
  rw [List.cons.injEq] at h2
  exact natDigs_inj h2.2

theorem iterateTrial_ne_nil {t : JStr} (ht : t ≠ []) : ∀ k, iterateTrial t k ≠ [] := by
  intro k
  induction k generalizing t with
  | zero => exact ht
  | succ k ihk => exact ihk (nextTrial_ne_nil t)

theorem findFree_found {taken : List JStr} : ∀ {fuel : Nat} {t r : JStr},
    findFree taken fuel t = some r → r ∉ taken ∧ r ≠ [] := by
  intro fuel
  induction fuel with
  | zero => intro t r h; simp [findFree] at h
  | succ f ihf =>
    intro t r h
    rw [findFree] at h
    by_cases hmem : t ∈ taken
    · rw [if_pos hmem] at h
      exact ihf h
    · rw [if_neg hmem] at h
      by_cases hnil : t = []
      · rw [if_pos hnil] at h; simp at h
      · rw [if_neg hnil] at h
        rw [Option.some.injEq] at h
        exact h ▸ ⟨hmem, hnil⟩

theorem findFree_some {taken : List JStr} : ∀ {fuel : Nat} {t : JStr}, t ≠ [] →
    (∃ k < fuel, iterateTrial t k ∉ taken) → (findFree taken fuel t).isSome := by
  intro fuel
  induction fuel with
  | zero =>
    intro t _ h
    obtain ⟨k, hk, _⟩ := h
    omega
  | succ f ihf =>
    intro t ht h
    rw [findFree]
    by_cases hmem : t ∈ taken
    · rw [if_pos hmem]
      obtain ⟨k, hk, hfree⟩ := h
      have hk0 : k ≠ 0 := by
        rintro rfl
        exact hfree hmem
      refine ihf (nextTrial_ne_nil t) ⟨k - 1, by omega, ?_⟩
      have : iterateTrial (nextTrial t) (k - 1) = iterateTrial t k := by
        obtain ⟨k', rfl⟩ : ∃ k', k = k' + 1 := ⟨k - 1, by omega⟩
        rfl
      rw [this]
      exact hfree
    · rw [if_neg hmem, if_neg ht]
      rfl

theorem exists_free (taken : List JStr) (t : JStr) :
    ∃ k < taken.length + 2, iterateTrial t k ∉ taken := by
  by_contra hcon
  push_neg at hcon
  obtain ⟨B', n0, hshape⟩ := nextTrial_shape t
  have hmem : ∀ j ≤ taken.length, B' ++ '$' :: natDigs (n0 + j) ∈ taken := by
    intro j hj
    have h := hcon (j + 1) (by omega)
    rw [show iterateTrial t (j + 1) = iterateTrial (nextTrial t) j from rfl,
      hshape, iterateTrial_iterG] at h
    exact h
  have hinj : Set.InjOn (fun j => B' ++ '$' :: natDigs (n0 + j))
      ↑(Finset.range (taken.length + 1)) := by
    intro a _ b _ hab
    have := iterG_inj hab
    omega
  have hsub : (Finset.range (taken.length + 1)).image (fun j => B' ++ '$' :: natDigs (n0 + j))
      ⊆ taken.toFinset := by
    intro x hx
    rw [Finset.mem_image] at hx
    obtain ⟨j, hj, rfl⟩ := hx
    rw [Finset.mem_range] at hj
    rw [List.mem_toFinset]
    exact hmem j (by omega)
  have hcard := Finset.card_le_card hsub
  rw [Finset.card_image_of_injOn hinj, Finset.card_range] at hcard
  have := List.toFinset_card_le taken
  omega

theorem findFree_total (taken : List JStr) {t : JStr} (ht : t ≠ []) :
    (findFree taken (taken.length + 2) t).isSome :=
  findFree_some ht (exists_free taken t)

theorem findFree_mem_iterate {taken : List JStr} : ∀ {fuel : Nat} {t r : JStr},
    findFree taken fuel t = some r → ∃ k, r = iterateTrial t k := by
  intro fuel
  induction fuel with
  | zero => intro t r h; simp [findFree] at h
  | succ f ihf =>
    intro t r h
    rw [findFree] at h
    by_cases hmem : t ∈ taken
    · rw [if_pos hmem] at h
      obtain ⟨k, hk⟩ := ihf h
      exact ⟨k + 1, hk⟩
    · rw [if_neg hmem] at h
      by_cases hnil : t = []
      · rw [if_pos hnil] at h; simp at h
      · rw [if_neg hnil, Option.some.injEq] at h
        exact ⟨0, h.symm⟩

/-! ### Association-list lemmas -/

theorem lookupA_mem_pair {κ α : Type} [DecidableEq κ] :
    ∀ {l : List (κ × α)} {k : κ} {v : α}, lookupA l k = some v → (k, v) ∈ l := by
  intro l
  induction l with
  | nil => intro k v h; simp [lookupA] at h
  | cons p t iht =>
    obtain ⟨a, b⟩ := p
    intro k v h
    rw [lookupA] at h
    by_cases ha : a = k
    · rw [if_pos ha, Option.some.injEq] at h
      subst ha
      subst h
      exact List.mem_cons_self _ _
    · rw [if_neg ha] at h
      exact List.mem_cons_of_mem _ (iht h)

theorem lookupA_eq_none {κ α : Type} [DecidableEq κ] :
    ∀ {l : List (κ × α)} {k : κ}, lookupA l k = none ↔ ∀ p ∈ l, p.1 ≠ k := by
  intro l
  induction l with
  | nil => intro k; simp [lookupA]
  | cons p t iht =>
    intro k
    rw [lookupA]
    by_cases ha : p.1 = k
    · simp [ha]
    · simp [ha, iht]

theorem setA_append_of_none {κ α : Type} [DecidableEq κ] :
    ∀ {l : List (κ × α)} {k : κ} (v : α), lookupA l k = none → setA l k v = l ++ [(k, v)] := by
  intro l
  induction l with
  | nil => intro k v _; rfl
  | cons p t iht =>
    intro k v h
    rw [lookupA] at h
    by_cases ha : p.1 = k
    · rw [if_pos ha] at h; simp at h
    · rw [if_neg ha] at h
      show setA (p :: t) k v = p :: (t ++ [(k, v)])
      rw [show (p :: t : List (κ × α)) = (p.1, p.2) :: t from by rfl, setA, if_neg ha,
        iht v h]

theorem lookupA_append {κ α : Type} [DecidableEq κ] :
    ∀ (l1 l2 : List (κ × α)) (k : κ),
      lookupA (l1 ++ l2) k =
        match lookupA l1 k with
        | some v => some v
        | none => lookupA l2 k := by
  intro l1
  induction l1 with
  | nil => intro l2 k; rfl
  | cons p t iht =>
    intro l2 k
    show lookupA ((p.1, p.2) :: (t ++ l2)) k = _
    rw [lookupA, lookupA]
    by_cases ha : p.1 = k
    · rw [if_pos ha, if_pos ha]
    · rw [if_neg ha, if_neg ha, iht]

theorem lookupA_setA {κ α : Type} [DecidableEq κ] :
    ∀ (l : List (κ × α)) (k : κ) (v : α) (k' : κ),
      lookupA (setA l k v) k' = if k' = k then some v else lookupA l k' := by
  intro l
  induction l with
  | nil =>
    intro k v k'
    show lookupA [(k, v)] k' = _
    by_cases h : k' = k
    · subst h
      simp [lookupA]
    · have h2 : ¬k = k' := fun he => h he.symm
      simp [lookupA, h, h2]
  | cons p t iht =>
    obtain ⟨a, b⟩ := p
    intro k v k'
    rw [setA]
    by_cases ha : a = k
    · subst ha
      rw [if_pos rfl, lookupA, lookupA]
      by_cases h : k' = a
      · rw [if_pos h.symm, if_pos h]
      · rw [if_neg (fun he : a = k' => h he.symm), if_neg h,
          if_neg (fun he : a = k' => h he.symm)]
    · rw [if_neg ha, lookupA, lookupA]
      by_cases hp : a = k'
      · rw [if_pos hp, if_pos hp, if_neg (fun h : k' = k => ha (hp.trans h))]
      · rw [if_neg hp, if_neg hp, iht]

theorem lookupA_of_mem_nodup {κ α : Type} [DecidableEq κ] :
    ∀ {l : List (κ × α)}, (l.map (fun p => p.1)).Nodup →
      ∀ {k : κ} {v : α}, (k, v) ∈ l → lookupA l k = some v := by
  intro l
  induction l with
  | nil => intro _ k v h; simp at h
  | cons p t iht =>
    intro hN k v h
    rw [List.map_cons, List.nodup_cons] at hN
    rw [lookupA]
    rcases List.mem_cons.mp h with he | hm
    · rw [if_pos (by rw [← he])]
      rw [← he]
    · by_cases ha : p.1 = k
      · exfalso
        apply hN.1
        rw [ha]
        exact List.mem_map.mpr ⟨(k, v), hm, rfl⟩
      · rw [if_neg ha]
        exact iht hN.2 hm

/-! ### Lemmas about the union of assigned names -/

theorem allAssigned_cons (m : JStr) (mp : List (JStr × JStr)) (t : BundledExports) :
    allAssigned ((m, mp) :: t) = mp.map (fun p => p.2) ++ allAssigned t := rfl

theorem allAssigned_append : ∀ (l1 l2 : BundledExports),
    allAssigned (l1 ++ l2) = allAssigned l1 ++ allAssigned l2 := by
  intro l1
  induction l1 with
  | nil => intro l2; rfl
  | cons p t iht =>
    intro l2
    show allAssigned ((p.1, p.2) :: (t ++ l2)) = _
    rw [allAssigned_cons, iht, show (p :: t : BundledExports) = (p.1, p.2) :: t from rfl,
      allAssigned_cons, List.append_assoc]

theorem allAssigned_ensure (be : BundledExports) (m : JStr) :
    allAssigned (be ++ [(m, [])]) = allAssigned be := by
  rw [allAssigned_append]
  simp [allAssigned, concatAll]

theorem mem_allAssigned {be : BundledExports} :
    ∀ {p}, p ∈ be → ∀ {q}, q ∈ p.2 → q.2 ∈ allAssigned be := by
  induction be with
  | nil => intro p h; simp at h
  | cons b t ihb =>
    intro p hp q hq
    rw [show (b :: t : BundledExports) = (b.1, b.2) :: t from rfl, allAssigned_cons]
    rcases List.mem_cons.mp hp with he | hm
    · exact List.mem_append_left _ (List.mem_map.mpr ⟨q, he ▸ hq, rfl⟩)
    · exact List.mem_append_right _ (ihb hm hq)

theorem lookupAssigned_mem {be : BundledExports} {m n r : JStr}
    (h : lookupAssigned be m n = some r) : r ∈ allAssigned be := by
  rw [lookupAssigned] at h
  match hm : lookupA be m with
  | none => rw [hm] at h; simp at h
  | some mp =>
    rw [hm] at h
    exact mem_allAssigned (lookupA_mem_pair hm) (lookupA_mem_pair h)

/-! ### Lemmas about `setModuleName` -/

theorem setModuleName_lookup (be : BundledExports) (m n r m' : JStr) :
    lookupA (setModuleName be m n r) m' =
      if m' = m then (lookupA be m).map (fun mp => setA mp n r) else lookupA be m' := by
  induction be with
  | nil =>
    by_cases h : m' = m <;> simp [setModuleName, lookupA, h]
  | cons p t iht =>
    obtain ⟨a, mp0⟩ := p
    by_cases ha : a = m
    · subst ha
      by_cases h : m' = a
      · subst h
        simp [setModuleName, lookupA]
      · have h2 : ¬a = m' := fun he => h he.symm
        simp [setModuleName, lookupA, h, h2]
    · by_cases h : m' = m
      · subst h
        simp [setModuleName, lookupA, ha, iht]
      · by_cases hp : a = m'
        · subst hp
          simp [setModuleName, lookupA, ha, h, iht]
        · simp [setModuleName, lookupA, ha, h, hp, iht]

theorem setModuleName_keys (be : BundledExports) (m n r : JStr) :
    (setModuleName be m n r).map (fun p => p.1) = be.map (fun p => p.1) := by
  induction be with
  | nil => rfl
  | cons p t iht =>
    rw [show (p :: t : BundledExports) = (p.1, p.2) :: t from rfl, setModuleName]
    by_cases ha : p.1 = m
    · rw [if_pos ha]
      simp
    · rw [if_neg ha]
      simp [iht]

theorem setModuleName_forall {P : JStr × List (JStr × JStr) → Prop} {be : BundledExports}
    {m n r : JStr} (hbe : ∀ p ∈ be, P p)
    (hupd : ∀ mp, (m, mp) ∈ be → P (m, setA mp n r)) :
    ∀ p ∈ setModuleName be m n r, P p := by
  induction be with
  | nil => intro p h; simp [setModuleName] at h
  | cons b t ihb =>
    rw [show (b :: t : BundledExports) = (b.1, b.2) :: t from rfl, setModuleName]
    by_cases ha : b.1 = m
    · rw [if_pos ha]
      intro p hp
      rcases List.mem_cons.mp hp with he | hm
      · rw [he, ha]
        exact hupd b.2 (by rw [← ha]; exact List.mem_cons_self _ _)
      · exact hbe p (List.mem_cons_of_mem _ hm)
    · rw [if_neg ha]
      intro p hp
      rcases List.mem_cons.mp hp with he | hm
      · exact he ▸ hbe (b.1, b.2) (List.mem_cons_self _ _)
      · exact ihb (fun q hq => hbe q (List.mem_cons_of_mem _ hq))
          (fun mp hmp => hupd mp (List.mem_cons_of_mem _ hmp)) p hm

theorem allAssigned_setModuleName_dec {be : BundledExports} {m n r : JStr} {mp : List (JStr × JStr)}
    (hm : lookupA be m = some mp) (hn : lookupA mp n = none) :
    ∃ A B2, allAssigned be = A ++ B2 ∧ allAssigned (setModuleName be m n r) = A ++ r :: B2 := by
  induction be with
  | nil => simp [lookupA] at hm
  | cons b t ihb =>
    rw [show (b :: t : BundledExports) = (b.1, b.2) :: t from rfl] at hm ⊢
    rw [lookupA] at hm
    rw [setModuleName]
    by_cases ha : b.1 = m
    · rw [if_pos ha] at hm
      rw [Option.some.injEq] at hm
      rw [if_pos ha, allAssigned_cons, allAssigned_cons, hm, setA_append_of_none r hn]
      refine ⟨mp.map (fun p => p.2), allAssigned t, rfl, ?_⟩
      simp
    · rw [if_neg ha] at hm
      rw [if_neg ha, allAssigned_cons, allAssigned_cons]
      obtain ⟨A, B2, h1, h2⟩ := ihb hm
      exact ⟨b.2.map (fun p => p.2) ++ A, B2, by rw [h1, List.append_assoc],
        by rw [h2, List.append_assoc]⟩

/-! ### Case analysis of a single resolve-or-assign call -/

theorem getOrSet_module_none {be : BundledExports} {m : JStr} (n : JStr)
    (hm : lookupA be m = none) :
    getOrSetBundleModuleExportName be m n = assignFresh (be ++ [(m, [])]) m n := by
  simp only [getOrSetBundleModuleExportName, hm, if_pos, setA_append_of_none _ hm,
    lookupA_append, lookupA]

theorem getOrSet_module_some {be : BundledExports} {m : JStr} (n : JStr)
    {mp : List (JStr × JStr)} (hm : lookupA be m = some mp) :
    getOrSetBundleModuleExportName be m n =
      match lookupA mp n with
      | some e => if e = [] then assignFresh be m n else some (e, be)
      | none => assignFresh be m n := by
  simp [getOrSetBundleModuleExportName, hm]

theorem assignFresh_some_spec {be : BundledExports} {m n r : JStr} {be' : BundledExports}
    (h : assignFresh be m n = some (r, be')) :
    r ∉ allAssigned be ∧ r ≠ [] ∧ (∃ k, r = iterateTrial (computeTrialName m n) k) ∧
      be' = setModuleName be m n r := by
  simp only [assignFresh] at h
  match hff : findFree (allAssigned be) ((allAssigned be).length + 2) (computeTrialName m n) with
  | none => rw [hff] at h; simp at h
  | some r0 =>
    rw [hff] at h
    rw [Option.some.injEq, Prod.mk.injEq] at h
    obtain ⟨hr, hbe'⟩ := h
    subst hr
    obtain ⟨h1, h2⟩ := findFree_found hff
    obtain ⟨k, hk⟩ := findFree_mem_iterate hff
    exact ⟨h1, h2, ⟨k, hk⟩, hbe'.symm⟩

theorem assignFresh_total {be : BundledExports} {m n : JStr}
    (hn : computeTrialName m n ≠ []) : (assignFresh be m n).isSome := by
  simp only [assignFresh]
  have htot := findFree_total (allAssigned be) (t := computeTrialName m n) hn
  match hff : findFree (allAssigned be) ((allAssigned be).length + 2) (computeTrialName m n) with
  | none => rw [hff] at htot; simp at htot
  | some r => rfl

theorem computeTrialName_ne_nil {m n : JStr} (hn : n ≠ []) : computeTrialName m n ≠ [] := by
  intro hcontra
  unfold computeTrialName sanitize at hcontra
  rw [List.map_eq_nil_iff] at hcontra
  by_cases h2 : (if n = js "default" then
      ('$' :: camelCase (stripExt (getFileName m))) ++ js "Default" else n) = ['*']
  · rw [if_pos h2] at hcontra
    simp at hcontra
  · rw [if_neg h2] at hcontra
    by_cases h1 : n = js "default"
    · rw [if_pos h1] at hcontra
      simp at hcontra
    · rw [if_neg h1] at hcontra
      exact hn hcontra

theorem getOrSet_isSome (be : BundledExports) (m : JStr) {n : JStr} (hn : n ≠ []) :
    (getOrSetBundleModuleExportName be m n).isSome := by
  have hfr : ∀ beX : BundledExports, (assignFresh beX m n).isSome :=
    fun beX => assignFresh_total (computeTrialName_ne_nil hn)
  match hm : lookupA be m with
  | none => rw [getOrSet_module_none n hm]; exact hfr _
  | some mp =>
    rw [getOrSet_module_some n hm]
    match he : lookupA mp n with
    | some e =>
      by_cases hee : e = []
      · simp [hee, hfr be]
      · simp [hee]
    | none => exact hfr be

/-! ### The bundle-state invariant -/

structure WFState (be : BundledExports) : Prop where
  keysN : (be.map (fun p => p.1)).Nodup
  innerN : ∀ p ∈ be, (p.2.map (fun q => q.1)).Nodup
  valsNe : ∀ p ∈ be, ∀ q ∈ p.2, q.2 ≠ []
  assignedN : (allAssigned be).Nodup

theorem wf_nil : WFState [] :=
  ⟨by simp, by simp, by simp, by simp [allAssigned, concatAll]⟩

theorem not_mem_keys_of_lookup_none {κ α : Type} [DecidableEq κ] {l : List (κ × α)} {k : κ}
    (h : lookupA l k = none) : k ∉ l.map (fun p => p.1) := by
  intro hk
  rw [List.mem_map] at hk
  obtain ⟨p, hp, hpk⟩ := hk
  exact lookupA_eq_none.mp h p hp hpk

theorem nodup_append_singleton {α : Type} {l : List α} {a : α}
    (hN : l.Nodup) (ha : a ∉ l) : (l ++ [a]).Nodup := by
  rw [List.nodup_append]
  refine ⟨hN, List.nodup_singleton a, ?_⟩
  intro x hx hxa
  rw [List.mem_singleton] at hxa
  exact ha (hxa ▸ hx)

theorem wf_ensure {be : BundledExports} {m : JStr} (hwf : WFState be)
    (hm : lookupA be m = none) : WFState (be ++ [(m, [])]) := by
  refine ⟨?_, ?_, ?_, ?_⟩
  · rw [List.map_append]
    exact nodup_append_singleton hwf.keysN (not_mem_keys_of_lookup_none hm)
  · intro p hp
    rcases List.mem_append.mp hp with h | h
    · exact hwf.innerN p h
    · rw [List.mem_singleton] at h
      rw [h]
      simp
  · intro p hp q hq
    rcases List.mem_append.mp hp with h | h
    · exact hwf.valsNe p h q hq
    · rw [List.mem_singleton] at h
      rw [h] at hq
      simp at hq
  · rw [allAssigned_ensure]
    exact hwf.assignedN

theorem lookupAssigned_ensure {be : BundledExports} {m : JStr} (_hm : lookupA be m = none)
    (m' n' : JStr) : lookupAssigned (be ++ [(m, [])]) m' n' = lookupAssigned be m' n' := by
  unfold lookupAssigned
  rw [lookupA_append]
  match h : lookupA be m' with
  | some mp => rfl
  | none => by_cases hmm' : m = m' <;> simp [lookupA, hmm']

theorem lookupA_ensured {be : BundledExports} {m : JStr} (hm : lookupA be m = none) :
    lookupA (be ++ [(m, [])]) m = some [] := by
  rw [lookupA_append, hm, lookupA, if_pos rfl]

theorem getOrSet_memoized {be : BundledExports} {m n : JStr} {mp : List (JStr × JStr)} {e : JStr}
    (hm : lookupA be m = some mp) (he : lookupA mp n = some e) (hee : e ≠ []) :
    getOrSetBundleModuleExportName be m n = some (e, be) := by
  rw [getOrSet_module_some n hm, he]
  simp [hee]

theorem getOrSet_fresh_of_none {be : BundledExports} {m n : JStr} {mp : List (JStr × JStr)}
    (hm : lookupA be m = some mp) (he : lookupA mp n = none) :
    getOrSetBundleModuleExportName be m n = assignFresh be m n := by
  rw [getOrSet_module_some n hm, he]

theorem fresh_lookups {beX : BundledExports} {m n : JStr} (r : JStr) {mp : List (JStr × JStr)}
    (hm : lookupA beX m = some mp) (_he : lookupA mp n = none) :
    lookupAssigned (setModuleName beX m n r) m n = some r ∧
    ∀ m' n', ¬(m' = m ∧ n' = n) →
      lookupAssigned (setModuleName beX m n r) m' n' = lookupAssigned beX m' n' := by
  constructor
  · simp [lookupAssigned, setModuleName_lookup, hm, lookupA_setA]
  · intro m' n' hne
    by_cases hmm : m' = m
    · have hnn : ¬(n' = n) := fun hn' => hne ⟨hmm, hn'⟩
      simp [lookupAssigned, setModuleName_lookup, hmm, hm, lookupA_setA, hnn]
    · simp [lookupAssigned, setModuleName_lookup, hmm]

theorem getOrSet_cases {be : BundledExports} {m n r : JStr} {be' : BundledExports}
    (hwf : WFState be)
    (h : getOrSetBundleModuleExportName be m n = some (r, be')) :
    (lookupAssigned be m n = some r ∧ be' = be) ∨
    (lookupAssigned be m n = none ∧ r ∉ allAssigned be ∧ r ≠ [] ∧
      (∃ k, r = iterateTrial (computeTrialName m n) k) ∧
      lookupAssigned be' m n = some r ∧
      (∀ m' n', ¬(m' = m ∧ n' = n) → lookupAssigned be' m' n' = lookupAssigned be m' n') ∧
      (∃ A B2, allAssigned be = A ++ B2 ∧ allAssigned be' = A ++ r :: B2)) := by
  match hm : lookupA be m with
  | none =>
    rw [getOrSet_module_none n hm] at h
    obtain ⟨h1, h2, h3, hbe'⟩ := assignFresh_some_spec h
    subst hbe'
    have hmE := lookupA_ensured hm
    have heE : lookupA ([] : List (JStr × JStr)) n = none := rfl
    obtain ⟨hL1, hL2⟩ := fresh_lookups r hmE heE
    have hAll := allAssigned_ensure be m
    right
    refine ⟨by simp [lookupAssigned, hm], hAll ▸ h1, h2, h3, hL1, ?_, ?_⟩
    · intro m' n' hne
      rw [hL2 m' n' hne, lookupAssigned_ensure hm]
    · obtain ⟨A, B2, hA1, hA2⟩ := allAssigned_setModuleName_dec (r := r) hmE heE
      exact ⟨A, B2, by rw [← hAll, hA1], hA2⟩
  | some mp =>
    match he : lookupA mp n with
    | some e =>
      have hee : e ≠ [] :=
        hwf.valsNe _ (lookupA_mem_pair hm) _ (lookupA_mem_pair he)
      rw [getOrSet_memoized hm he hee, Option.some.injEq, Prod.mk.injEq] at h
      left
      refine ⟨?_, h.2.symm⟩
      rw [← h.1]
      simp [lookupAssigned, hm, he]
    | none =>
      rw [getOrSet_fresh_of_none hm he] at h
      obtain ⟨h1, h2, h3, hbe'⟩ := assignFresh_some_spec h
      subst hbe'
      obtain ⟨hL1, hL2⟩ := fresh_lookups r hm he
      right
      refine ⟨by simp [lookupAssigned, hm, he], h1, h2, h3, hL1, hL2, ?_⟩
      exact allAssigned_setModuleName_dec (r := r) hm he

theorem wf_setModuleName {beX : BundledExports} {m n r : JStr} {mp : List (JStr × JStr)}
    (hwf : WFState beX) (hm : lookupA beX m = some mp) (he : lookupA mp n = none)
    (hr : r ∉ allAssigned beX) (hrne : r ≠ []) : WFState (setModuleName beX m n r) := by
  have hmem : ∀ mp', (m, mp') ∈ beX → mp' = mp := by
    intro mp' hmp'
    have h2 := lookupA_of_mem_nodup hwf.keysN hmp'
    rw [hm, Option.some.injEq] at h2
    exact h2.symm
  refine ⟨?_, ?_, ?_, ?_⟩
  · rw [setModuleName_keys]
    exact hwf.keysN
  · apply setModuleName_forall (P := fun p => (p.2.map (fun q => q.1)).Nodup) hwf.innerN
    intro mp' hmp'
    rw [hmem mp' hmp']
    show ((setA mp n r).map (fun q => q.1)).Nodup
    rw [setA_append_of_none r he, List.map_append]
    exact nodup_append_singleton (hwf.innerN _ (lookupA_mem_pair hm))
      (not_mem_keys_of_lookup_none he)
  · apply setModuleName_forall (P := fun p => ∀ q ∈ p.2, q.2 ≠ []) hwf.valsNe
    intro mp' hmp'
    rw [hmem mp' hmp']
    intro q hq
    rw [setA_append_of_none r he] at hq
    rcases List.mem_append.mp hq with hq2 | hq2
    · exact hwf.valsNe _ (lookupA_mem_pair hm) q hq2
    · rw [List.mem_singleton] at hq2
      rw [hq2]
      exact hrne
  · obtain ⟨A, B2, h1, h2⟩ := allAssigned_setModuleName_dec (r := r) hm he
    rw [h2, List.nodup_middle, List.nodup_cons]
    exact ⟨h1 ▸ hr, h1 ▸ hwf.assignedN⟩

theorem getOrSet_wf {be : BundledExports} {m n r : JStr} {be' : BundledExports}
    (hwf : WFState be) (h : getOrSetBundleModuleExportName be m n = some (r, be')) :
    WFState be' := by
  match hm : lookupA be m with
  | none =>
    rw [getOrSet_module_none n hm] at h
    obtain ⟨h1, h2, _, hbe'⟩ := assignFresh_some_spec h
    subst hbe'
    exact wf_setModuleName (wf_ensure hwf hm) (lookupA_ensured hm) rfl h1 h2
  | some mp =>
    match he : lookupA mp n with
    | some e =>
      have hee : e ≠ [] :=
        hwf.valsNe _ (lookupA_mem_pair hm) _ (lookupA_mem_pair he)
      rw [getOrSet_memoized hm he hee, Option.some.injEq, Prod.mk.injEq] at h
      rw [← h.2]
      exact hwf
    | none =>
      rw [getOrSet_fresh_of_none hm he] at h
      obtain ⟨h1, h2, _, hbe'⟩ := assignFresh_some_spec h
      subst hbe'
      exact wf_setModuleName hwf hm he h1 h2

theorem getOrSet_of_assigned {be : BundledExports} {m n r : JStr} (hwf : WFState be)
    (hr : lookupAssigned be m n = some r) :
    getOrSetBundleModuleExportName be m n = some (r, be) := by
  unfold lookupAssigned at hr
  match hm : lookupA be m with
  | none => rw [hm] at hr; simp at hr
  | some mp =>
    rw [hm] at hr
    exact getOrSet_memoized hm hr (hwf.valsNe _ (lookupA_mem_pair hm) _ (lookupA_mem_pair hr))

theorem getOrSet_mono {be : BundledExports} {m n r : JStr} {be' : BundledExports}
    (hwf : WFState be) (h : getOrSetBundleModuleExportName be m n = some (r, be'))
    {m' n' r0 : JStr} (h0 : lookupAssigned be m' n' = some r0) :
    lookupAssigned be' m' n' = some r0 := by
  rcases getOrSet_cases hwf h with ⟨_, rfl⟩ | ⟨hnone, _, _, _, _, hL2, _⟩
  · exact h0
  · by_cases hk : m' = m ∧ n' = n
    · rw [hk.1, hk.2] at h0
      rw [h0] at hnone
      exact absurd hnone (by simp)
    · rw [hL2 m' n' hk]
      exact h0

theorem runCalls_wf_mono {reqs : List (JStr × JStr)} : ∀ {be : BundledExports}
    {rs : List JStr} {be' : BundledExports},
    WFState be → runCalls be reqs = some (rs, be') →
    WFState be' ∧ ∀ m n r, lookupAssigned be m n = some r → lookupAssigned be' m n = some r := by
  induction reqs with
  | nil =>
    intro be rs be' hwf h
    rw [runCalls, Option.some.injEq, Prod.mk.injEq] at h
    rw [← h.2]
    exact ⟨hwf, fun _ _ _ h0 => h0⟩
  | cons p t iht =>
    obtain ⟨m0, n0⟩ := p
    intro be rs be' hwf h
    rw [runCalls] at h
    match hc : getOrSetBundleModuleExportName be m0 n0 with
    | none => rw [hc] at h; simp at h
    | some (r1, be1) =>
      rw [hc] at h
      dsimp only at h
      match hrest : runCalls be1 t with
      | none => rw [hrest] at h; simp at h
      | some (rs2, be2) =>
        rw [hrest, Option.some.injEq, Prod.mk.injEq] at h
        rw [← h.2]
        have hwf1 := getOrSet_wf hwf hc
        obtain ⟨hwf2, hmono2⟩ := iht hwf1 hrest
        exact ⟨hwf2, fun m n r h0 => hmono2 m n r (getOrSet_mono hwf hc h0)⟩

/-! ### Distinct keys carry distinct names -/

theorem lookupA_mem_val {κ α : Type} [DecidableEq κ] {l : List (κ × α)} {k : κ} {v : α}
    (h : lookupA l k = some v) : v ∈ l.map (fun p => p.2) :=
  List.mem_map.mpr ⟨(k, v), lookupA_mem_pair h, rfl⟩

theorem lookupA_inj_vals {mp : List (JStr × JStr)} (hN : (mp.map (fun p => p.2)).Nodup) :
    ∀ {n1 n2 r : JStr}, lookupA mp n1 = some r → lookupA mp n2 = some r → n1 = n2 := by
  induction mp with
  | nil => intro n1 n2 r h1 _; simp [lookupA] at h1
  | cons b t ihb =>
    obtain ⟨k0, v0⟩ := b
    rw [List.map_cons, List.nodup_cons] at hN
    intro n1 n2 r h1 h2
    rw [lookupA] at h1 h2
    by_cases hk1 : k0 = n1
    · rw [if_pos hk1, Option.some.injEq] at h1
      by_cases hk2 : k0 = n2
      · rw [← hk1, ← hk2]
      · rw [if_neg hk2] at h2
        exact absurd (h1 ▸ lookupA_mem_val h2) hN.1
    · rw [if_neg hk1] at h1
      by_cases hk2 : k0 = n2
      · rw [if_pos hk2, Option.some.injEq] at h2
        exact absurd (h2 ▸ lookupA_mem_val h1) hN.1
      · rw [if_neg hk2] at h2
        exact ihb hN.2 h1 h2

theorem assigned_inj {be : BundledExports} (hwf : WFState be) :
    ∀ {m1 n1 m2 n2 r : JStr}, lookupAssigned be m1 n1 = some r →
      lookupAssigned be m2 n2 = some r → m1 = m2 ∧ n1 = n2 := by
  induction be with
  | nil => intro m1 n1 m2 n2 r h1 _; simp [lookupAssigned, lookupA] at h1
  | cons b t ihb =>
    obtain ⟨a, mp0⟩ := b
    have hA : (mp0.map (fun p => p.2) ++ allAssigned t).Nodup := hwf.assignedN
    rw [List.nodup_append] at hA
    have hwfT : WFState t := by
      refine ⟨?_, ?_, ?_, hA.2.1⟩
      · have := hwf.keysN
        rw [List.map_cons, List.nodup_cons] at this
        exact this.2
      · exact fun p hp => hwf.innerN p (List.mem_cons_of_mem _ hp)
      · exact fun p hp => hwf.valsNe p (List.mem_cons_of_mem _ hp)
    intro m1 n1 m2 n2 r h1 h2
    unfold lookupAssigned at h1 h2
    rw [lookupA] at h1 h2
    by_cases ha1 : a = m1
    · rw [if_pos ha1] at h1
      by_cases ha2 : a = m2
      · rw [if_pos ha2] at h2
        exact ⟨ha1 ▸ ha2, lookupA_inj_vals hA.1 h1 h2⟩
      · rw [if_neg ha2] at h2
        exact absurd (lookupA_mem_val h1) (fun hmem => hA.2.2 hmem (lookupAssigned_mem h2))
    · rw [if_neg ha1] at h1
      by_cases ha2 : a = m2
      · rw [if_pos ha2] at h2
        exact absurd (lookupA_mem_val h2) (fun hmem => hA.2.2 hmem (lookupAssigned_mem h1))
      · rw [if_neg ha2] at h2
        exact ihb hwfT h1 h2

/-- **C1**: after any sequence of resolve-or-assign calls on a bundle starting
from the empty export-name mapping, the union of all assigned names across all
contained modules contains no duplicates, and a further call never returns a
name that was already assigned to a different (moduleUrl, exportName) pair of
that bundle. -/
theorem claim_C1_unique_assigned_names
    (reqs : List (JStr × JStr)) (m n : JStr) (rs : List JStr)
    (be : BundledExports) (r : JStr) (be' : BundledExports)
    (hrun : runCalls [] reqs = some (rs, be))
    (hcall : getOrSetBundleModuleExportName be m n = some (r, be')) :
    (allAssigned be').Nodup ∧
    ∀ m' n' r0, ¬(m' = m ∧ n' = n) → lookupAssigned be m' n' = some r0 → r0 ≠ r := by
  have hwf := (runCalls_wf_mono wf_nil hrun).1
  have hwf' := getOrSet_wf hwf hcall
  refine ⟨hwf'.assignedN, ?_⟩
  intro m' n' r0 hne h0
  rcases getOrSet_cases hwf hcall with ⟨hmemo, rfl⟩ | ⟨_, hfree, _, _, _, _, _⟩
  · intro hrr
    rw [hrr] at h0
    obtain ⟨he1, he2⟩ := assigned_inj hwf h0 hmemo
    exact hne ⟨he1, he2⟩
  · intro hrr
    rw [hrr] at h0
    exact hfree (lookupAssigned_mem h0)

theorem claim_C1_unique_assigned_names_witness :
    (allAssigned [(['m'], [(['x'], ['x'])]), (['k'], [(['x'], ['x', '$', '1'])])]).Nodup ∧
    ∀ m' n' r0, ¬(m' = ['k'] ∧ n' = ['x']) →
      lookupAssigned [(['m'], [(['x'], ['x'])])] m' n' = some r0 → r0 ≠ ['x', '$', '1'] :=
  claim_C1_unique_assigned_names [(['m'], ['x'])] ['k'] ['x'] [['x']]
    [(['m'], [(['x'], ['x'])])] ['x', '$', '1']
    [(['m'], [(['x'], ['x'])]), (['k'], [(['x'], ['x', '$', '1'])])]
    (by decide) (by decide)

/-- **C2**: resolving the same (bundle, moduleUrl, exportName) triple twice —
possibly with other resolve-or-assign calls on the same bundle in between —
returns the same assigned name both times, and the repeated call leaves the
bundle's export-name mapping unchanged. -/
theorem claim_C2_resolution_stable
    (reqs1 reqs2 : List (JStr × JStr)) (m n : JStr)
    (rs1 rs2 : List JStr) (be s s2 : BundledExports) (r : JStr)
    (h1 : runCalls [] reqs1 = some (rs1, be))
    (h2 : getOrSetBundleModuleExportName be m n = some (r, s))
    (h3 : runCalls s reqs2 = some (rs2, s2)) :
    getOrSetBundleModuleExportName s2 m n = some (r, s2) := by
  have hwf := (runCalls_wf_mono wf_nil h1).1
  have hwfS := getOrSet_wf hwf h2
  have hassigned : lookupAssigned s m n = some r := by
    rcases getOrSet_cases hwf h2 with ⟨hmemo, rfl⟩ | ⟨_, _, _, _, hL1, _, _⟩
    · exact hmemo
    · exact hL1
  obtain ⟨hwf2, hmono⟩ := runCalls_wf_mono hwfS h3
  exact getOrSet_of_assigned hwf2 (hmono m n r hassigned)

theorem claim_C2_resolution_stable_witness :
    getOrSetBundleModuleExportName
      [(['a'], [(['x'], ['x'])]), (['b'], [(['x'], ['x', '$', '1'])])] ['a'] ['x'] =
      some (['x'], [(['a'], [(['x'], ['x'])]), (['b'], [(['x'], ['x', '$', '1'])])]) :=
  claim_C2_resolution_stable [] [(['b'], ['x'])] ['a'] ['x'] [] [['x', '$', '1']]
    [] [(['a'], [(['x'], ['x'])])]
    [(['a'], [(['x'], ['x'])]), (['b'], [(['x'], ['x', '$', '1'])])] ['x']
    (by decide) (by decide) (by decide)

/-! ### Character-level properties of assigned names -/

/-- The character class `[A-Za-z0-9_$]` of a bare identifier candidate. -/
def identDollar (c : Char) : Bool := isIdentC c || c = '$'

theorem digit_ident {c : Char} (h : isDigitC c = true) : isIdentC c = true := by
  rw [isDigitC] at h
  simp only [isIdentC, Bool.or_eq_true]
  exact Or.inl (Or.inr h)

theorem identDollar_sanitize (c : Char) : identDollar (sanitizeChar c) = true := by
  unfold sanitizeChar
  by_cases h : isIdentC c = true
  · rw [if_pos h]
    simp [identDollar, h]
  · rw [if_neg h]
    decide

theorem sanitizeChar_nondigit {c : Char} (h : isDigitC c = false) :
    isDigitC (sanitizeChar c) = false := by
  unfold sanitizeChar
  by_cases hi : isIdentC c = true
  · rw [if_pos hi]
    exact h
  · rw [if_neg hi]
    decide

theorem computeTrialName_class (m n : JStr) :
    ∀ c ∈ computeTrialName m n, identDollar c = true := by
  intro c hc
  unfold computeTrialName sanitize at hc
  rw [List.mem_map] at hc
  obtain ⟨c0, _, rfl⟩ := hc
  exact identDollar_sanitize c0

theorem stripRun_subset {p : Char → Bool} {l : JStr} : ∀ c ∈ stripRun p l, c ∈ l := by
  intro c hc
  rw [← strip_append_trail p l]
  exact List.mem_append_left _ hc

theorem nextTrial_class {t : JStr} (h : ∀ c ∈ t, identDollar c = true) :
    ∀ c ∈ nextTrial t, identDollar c = true := by
  unfold nextTrial
  by_cases hd : hasDollarNum t = true
  · rw [if_pos hd]
    intro c hc
    rcases List.mem_append.mp hc with h2 | h2
    · exact h c (stripRun_subset c h2)
    · simp [identDollar, digit_ident (natDigs_digits _ c h2)]
  · rw [if_neg hd]
    intro c hc
    rcases List.mem_append.mp hc with h2 | h2
    · exact h c h2
    · rw [List.mem_cons, List.mem_singleton] at h2
      rcases h2 with rfl | rfl <;> decide

theorem iterateTrial_class {t : JStr} (h : ∀ c ∈ t, identDollar c = true) :
    ∀ k, ∀ c ∈ iterateTrial t k, identDollar c = true := by
  intro k
  induction k generalizing t with
  | zero => exact h
  | succ k ihk => exact ihk (nextTrial_class h)

theorem head?_append_left {l : JStr} (x : JStr) (h : l ≠ []) : (l ++ x).head? = l.head? := by
  cases l with
  | nil => exact absurd rfl h
  | cons a t => rfl

theorem nextTrial_head {t : JStr} (h : t ≠ []) : (nextTrial t).head? = t.head? := by
  unfold nextTrial
  by_cases hd : hasDollarNum t = true
  · rw [if_pos hd]
    obtain ⟨S, hS, _⟩ := hasDollarNum_dest hd
    have h1 : stripRun isDigitC t ≠ [] := by rw [hS]; simp
    rw [head?_append_left _ h1]
    conv_rhs => rw [← strip_append_trail isDigitC t]
    rw [head?_append_left _ h1]
  · rw [if_neg hd]
    exact head?_append_left _ h

theorem iterateTrial_head {t : JStr} (h : t ≠ []) :
    ∀ k, (iterateTrial t k).head? = t.head? := by
  intro k
  induction k generalizing t with
  | zero => rfl
  | succ k ihk =>
    show (iterateTrial (nextTrial t) k).head? = _
    rw [ihk (nextTrial_ne_nil t), nextTrial_head h]

theorem computeTrialName_head {m n : JStr} {c0 c1 : Char}
    (hn : n.head? = some c0) (hd : isDigitC c0 = false)
    (hc : (computeTrialName m n).head? = some c1) : isDigitC c1 = false := by
  unfold computeTrialName sanitize at hc
  rw [List.head?_map] at hc
  by_cases h1 : n = js "default"
  · rw [if_pos h1] at hc
    by_cases h2 : ('$' :: camelCase (stripExt (getFileName m))) ++ js "Default" = ['*']
    · rw [if_pos h2] at hc
      rw [Option.map_eq_some'] at hc
      obtain ⟨c2, hc2, rfl⟩ := hc
      rw [show (('$' :: camelCase (stripExt (getFileName m))).head? = some '$') from rfl,
        Option.some.injEq] at hc2
      rw [← hc2]
      decide
    · rw [if_neg h2] at hc
      rw [Option.map_eq_some'] at hc
      obtain ⟨c2, hc2, rfl⟩ := hc
      rw [show ((('$' :: camelCase (stripExt (getFileName m))) ++ js "Default").head? =
        some '$') from rfl, Option.some.injEq] at hc2
      rw [← hc2]
      decide
  · rw [if_neg h1] at hc
    by_cases h2 : n = ['*']
    · rw [if_pos h2] at hc
      rw [Option.map_eq_some'] at hc
      obtain ⟨c2, hc2, rfl⟩ := hc
      rw [show (('$' :: camelCase (stripExt (getFileName m))).head? = some '$') from rfl,
        Option.some.injEq] at hc2
      rw [← hc2]
      decide
    · rw [if_neg h2, hn] at hc
      rw [Option.map_some', Option.some.injEq] at hc
      rw [← hc]
      exact sanitizeChar_nondigit hd

/-- Every name stored in a bundle state lies in `[A-Za-z0-9_$]`, and starts
with a digit only if the original export name it was assigned for does. -/
def GoodNames (be : BundledExports) : Prop :=
  ∀ p ∈ be, ∀ q ∈ p.2,
    (∀ c ∈ q.2, identDollar c = true) ∧
    ∀ c0 c1, q.1.head? = some c0 → isDigitC c0 = false → q.2.head? = some c1 →
      isDigitC c1 = false

theorem good_nil : GoodNames [] := by
  intro p hp
  simp at hp

theorem good_ensure {be : BundledExports} {m : JStr} (hg : GoodNames be) :
    GoodNames (be ++ [(m, [])]) := by
  intro p hp
  rcases List.mem_append.mp hp with h | h
  · exact hg p h
  · rw [List.mem_singleton] at h
    rw [h]
    intro q hq
    simp at hq

theorem unique_module {beX : BundledExports} (hwfX : WFState beX) {m : JStr}
    {mp : List (JStr × JStr)} (hm : lookupA beX m = some mp) :
    ∀ mp', (m, mp') ∈ beX → mp' = mp := by
  intro mp' hmp'
  have h2 := lookupA_of_mem_nodup hwfX.keysN hmp'
  rw [hm, Option.some.injEq] at h2
  exact h2.symm

theorem fresh_r_props {m n r : JStr}
    (hr : ∃ k, r = iterateTrial (computeTrialName m n) k) :
    (∀ c ∈ r, identDollar c = true) ∧
    (∀ c0 c1, n.head? = some c0 → isDigitC c0 = false → r.head? = some c1 →
      isDigitC c1 = false) := by
  obtain ⟨k, rfl⟩ := hr
  refine ⟨iterateTrial_class (computeTrialName_class m n) k, ?_⟩
  intro c0 c1 h0 hd h1
  have hn : n ≠ [] := by
    intro he
    rw [he] at h0
    simp at h0
  rw [iterateTrial_head (computeTrialName_ne_nil hn) k] at h1
  exact computeTrialName_head h0 hd h1

theorem good_setModuleName {beX : BundledExports} {m n r : JStr} {mp : List (JStr × JStr)}
    (hwfX : WFState beX) (hgX : GoodNames beX)
    (hm : lookupA beX m = some mp) (he : lookupA mp n = none)
    (hclass : ∀ c ∈ r, identDollar c = true)
    (hhead : ∀ c0 c1, n.head? = some c0 → isDigitC c0 = false → r.head? = some c1 →
      isDigitC c1 = false) :
    GoodNames (setModuleName beX m n r) := by
  apply setModuleName_forall
    (P := fun p => ∀ q ∈ p.2,
      (∀ c ∈ q.2, identDollar c = true) ∧
      ∀ c0 c1, q.1.head? = some c0 → isDigitC c0 = false → q.2.head? = some c1 →
        isDigitC c1 = false) hgX
  intro mp' hmp'
  rw [unique_module hwfX hm mp' hmp']
  intro q hq
  rw [setA_append_of_none r he] at hq
  rcases List.mem_append.mp hq with hq2 | hq2
  · exact hgX _ (lookupA_mem_pair hm) q hq2
  · rw [List.mem_singleton] at hq2
    rw [hq2]
    exact ⟨hclass, hhead⟩

theorem getOrSet_good {be : BundledExports} {m n r : JStr} {be' : BundledExports}
    (hwf : WFState be) (hg : GoodNames be)
    (h : getOrSetBundleModuleExportName be m n = some (r, be')) :
    GoodNames be' ∧ (∀ c ∈ r, identDollar c = true) ∧
      (∀ c0 c1, n.head? = some c0 → isDigitC c0 = false → r.head? = some c1 →
        isDigitC c1 = false) := by
  match hm : lookupA be m with
  | none =>
    rw [getOrSet_module_none n hm] at h
    obtain ⟨_, _, h3, hbe'⟩ := assignFresh_some_spec h
    subst hbe'
    obtain ⟨hc, hh⟩ := fresh_r_props h3
    exact ⟨good_setModuleName (wf_ensure hwf hm) (good_ensure hg) (lookupA_ensured hm)
      rfl hc hh, hc, hh⟩
  | some mp =>
    match he : lookupA mp n with
    | some e =>
      have hee := hwf.valsNe _ (lookupA_mem_pair hm) _ (lookupA_mem_pair he)
      rw [getOrSet_memoized hm he hee, Option.some.injEq, Prod.mk.injEq] at h
      obtain ⟨hre, hbe⟩ := h
      have hprops := hg _ (lookupA_mem_pair hm) _ (lookupA_mem_pair he)
      rw [← hbe, ← hre]
      exact ⟨hg, hprops.1, hprops.2⟩
    | none =>
      rw [getOrSet_fresh_of_none hm he] at h
      obtain ⟨_, _, h3, hbe'⟩ := assignFresh_some_spec h
      subst hbe'
      obtain ⟨hc, hh⟩ := fresh_r_props h3
      exact ⟨good_setModuleName hwf hg hm he hc hh, hc, hh⟩

theorem runCalls_good {reqs : List (JStr × JStr)} : ∀ {be : BundledExports}
    {rs : List JStr} {be' : BundledExports},
    WFState be → GoodNames be → runCalls be reqs = some (rs, be') → GoodNames be' := by
  induction reqs with
  | nil =>
    intro be rs be' _ hg h
    rw [runCalls, Option.some.injEq, Prod.mk.injEq] at h
    rw [← h.2]
    exact hg
  | cons p t iht =>
    obtain ⟨m0, n0⟩ := p
    intro be rs be' hwf hg h
    rw [runCalls] at h
    match hc : getOrSetBundleModuleExportName be m0 n0 with
    | none => rw [hc] at h; simp at h
    | some (r1, be1) =>
      rw [hc] at h
      dsimp only at h
      match hrest : runCalls be1 t with
      | none => rw [hrest] at h; simp at h
      | some (rs2, be2) =>
        rw [hrest, Option.some.injEq, Prod.mk.injEq] at h
        rw [← h.2]
        exact iht (getOrSet_wf hwf hc) (getOrSet_good hwf hg hc).1 hrest

/-- **C3** (amended): every name returned by `getOrSetBundleModuleExportName`
on a bundle reachable from the empty mapping contains no characters outside
`[A-Za-z0-9_$]`; and whenever the requested export name does not start with a
decimal digit, neither does the returned name.  (The original claim's
"never starts with a digit" fails for inputs that themselves start with a
digit, see the counterexample.) -/
theorem claim_C3_amended_identifier_safety
    (reqs : List (JStr × JStr)) (m n : JStr) (rs : List JStr)
    (be : BundledExports) (r : JStr) (be' : BundledExports)
    (hrun : runCalls [] reqs = some (rs, be))
    (hcall : getOrSetBundleModuleExportName be m n = some (r, be')) :
    (∀ c ∈ r, identDollar c = true) ∧
    (∀ c0 c1, n.head? = some c0 → isDigitC c0 = false → r.head? = some c1 →
      isDigitC c1 = false) := by
  have hwf := (runCalls_wf_mono wf_nil hrun).1
  have hg := runCalls_good wf_nil good_nil hrun
  exact (getOrSet_good hwf hg hcall).2

theorem claim_C3_amended_identifier_safety_witness :
    (∀ c ∈ (['a', '$', 'b'] : JStr), identDollar c = true) ∧
    (∀ c0 c1, (['a', '-', 'b'] : JStr).head? = some c0 → isDigitC c0 = false →
      (['a', '$', 'b'] : JStr).head? = some c1 → isDigitC c1 = false) :=
  claim_C3_amended_identifier_safety [] ['m'] ['a', '-', 'b'] [] []
    ['a', '$', 'b'] [(['m'], [(['a', '-', 'b'], ['a', '$', 'b'])])]
    (by decide) (by decide)

/-- **C3** counterexample: on the input export name `"0"` the function returns
`"0"` itself, which starts with a decimal digit — so the returned name is not
always a digit-free-initial bare identifier. -/
theorem claim_C3_counterexample :
    getOrSetBundleModuleExportName [] ['m'] ['0'] =
      some (['0'], [(['m'], [(['0'], ['0'])])]) ∧
    (['0'] : JStr).head? = some '0' ∧ isDigitC '0' = true := by
  decide

/-! ### The `$1, $2, $3, …` collision sequence -/

/-- Name assigned to the `j`-th request of a run of colliding requests whose
common sanitized trial name is `T`. -/
def expectedName (T : JStr) : Nat → JStr
  | 0 => T
  | j + 1 => T ++ '$' :: natDigs (j + 1)

/-- Bundle state after the first few colliding requests: the `j`-th module
holds the single binding `nm ↦ expectedName T j`. -/
def colliderState (nm T : JStr) : List JStr → Nat → BundledExports
  | [], _ => []
  | m :: ms, j => (m, [(nm, expectedName T j)]) :: colliderState nm T ms (j + 1)

theorem colliderState_assigned (nm T : JStr) : ∀ (ms : List JStr) (j : Nat),
    allAssigned (colliderState nm T ms j) =
      (List.range ms.length).map (fun i => expectedName T (j + i)) := by
  intro ms
  induction ms with
  | nil => intro j; rfl
  | cons m ms ihms =>
    intro j
    rw [colliderState, allAssigned_cons, ihms (j + 1), List.length_cons,
      List.range_succ_eq_map]
    simp only [List.map_cons, List.map_map, List.map_nil, List.singleton_append,
      List.nil_append]
    congr 1
    apply List.map_congr_left
    intro i _
    show expectedName T (j + 1 + i) = expectedName T (j + (i + 1))
    congr 1
    omega

theorem colliderState_lookup_none (nm T : JStr) : ∀ {ms : List JStr} (j : Nat) {m : JStr},
    m ∉ ms → lookupA (colliderState nm T ms j) m = none := by
  intro ms
  induction ms with
  | nil => intro j m _; rfl
  | cons m0 ms ihms =>
    intro j m hm
    rw [colliderState, lookupA,
      if_neg (fun he => hm (by rw [← he]; exact List.mem_cons_self m0 ms)),
      ihms (j + 1) (fun hc => hm (List.mem_cons_of_mem _ hc))]

theorem colliderState_append (nm T : JStr) : ∀ (a b : List JStr) (j : Nat),
    colliderState nm T (a ++ b) j = colliderState nm T a j ++ colliderState nm T b (j + a.length) := by
  intro a
  induction a with
  | nil => intro b j; simp [colliderState]
  | cons m a iha =>
    intro b j
    rw [List.cons_append, colliderState, colliderState, iha b (j + 1), List.cons_append,
      List.length_cons, show j + (a.length + 1) = j + 1 + a.length from by omega]

theorem natDigs_length_pos (k : Nat) : 1 ≤ (natDigs k).length := by
  cases hk : natDigs k with
  | nil => exact absurd hk (natDigs_ne_nil k)
  | cons c cs => simp

theorem expectedName_inj {T : JStr} : ∀ {a b : Nat}, expectedName T a = expectedName T b → a = b := by
  intro a b h
  match a, b with
  | 0, 0 => rfl
  | 0, b + 1 =>
    exfalso
    have hl := congrArg List.length h
    simp only [expectedName, List.length_append, List.length_cons] at hl
    have h2 := natDigs_length_pos (b + 1)
    omega
  | a + 1, 0 =>
    exfalso
    have hl := congrArg List.length h
    simp only [expectedName, List.length_append, List.length_cons] at hl
    have h2 := natDigs_length_pos (a + 1)
    omega
  | a + 1, b + 1 =>
    simp only [expectedName] at h
    have h2 := List.append_cancel_left h
    rw [List.cons.injEq] at h2
    have h3 := natDigs_inj h2.2
    omega

theorem mem_expected {T : JStr} {i k : Nat} :
    expectedName T k ∈ (List.range i).map (expectedName T) ↔ k < i := by
  constructor
  · intro h
    rw [List.mem_map] at h
    obtain ⟨i0, hi0, he⟩ := h
    rw [List.mem_range] at hi0
    rw [expectedName_inj he] at hi0
    exact hi0
  · intro h
    exact List.mem_map.mpr ⟨k, List.mem_range.mpr h, rfl⟩

theorem findFree_chain (T : JStr) (taken : List JStr) : ∀ (d j fuel : Nat),
    (∀ k, j ≤ k → k < j + d → (T ++ '$' :: natDigs k) ∈ taken) →
    (T ++ '$' :: natDigs (j + d)) ∉ taken →
    d + 1 ≤ fuel →
    findFree taken fuel (T ++ '$' :: natDigs j) = some (T ++ '$' :: natDigs (j + d)) := by
  intro d
  induction d with
  | zero =>
    intro j fuel hmem hfree hfuel
    obtain ⟨f, rfl⟩ : ∃ f, fuel = f + 1 := ⟨fuel - 1, by omega⟩
    rw [Nat.add_zero] at hfree
    rw [findFree, if_neg hfree, if_neg (by simp), Nat.add_zero]
  | succ d ihd =>
    intro j fuel hmem hfree hfuel
    obtain ⟨f, rfl⟩ : ∃ f, fuel = f + 1 := ⟨fuel - 1, by omega⟩
    rw [findFree, if_pos (hmem j (Nat.le_refl j) (by omega)), nextTrial_iterG]
    have hres := ihd (j + 1) f (fun k hk1 hk2 => hmem k (by omega) (by omega))
      (by rw [show j + 1 + d = j + (d + 1) from by omega]; exact hfree) (by omega)
    rw [show j + (d + 1) = j + 1 + d from by omega]
    exact hres

theorem expectedName_succ_eq (T : JStr) (k : Nat) :
    expectedName T (k + 1) = T ++ '$' :: natDigs (k + 1) := rfl

theorem findFree_expected {T : JStr} (hT : T ≠ []) (hD : hasDollarNum T = false) (i : Nat) :
    findFree ((List.range i).map (expectedName T)) (i + 2) T = some (expectedName T i) := by
  have hnext : nextTrial T = T ++ '$' :: natDigs 1 := by
    rw [nextTrial, if_neg (by rw [hD]; simp)]
    rfl
  cases i with
  | zero =>
    show findFree [] (0 + 2) T = some T
    rw [show (0 + 2 : Nat) = 1 + 1 from rfl, findFree, if_neg (by simp), if_neg hT]
  | succ i0 =>
    have hmemT : T ∈ (List.range (i0 + 1)).map (expectedName T) :=
      List.mem_map.mpr ⟨0, List.mem_range.mpr (by omega), rfl⟩
    rw [show i0 + 1 + 2 = (i0 + 2) + 1 from by omega, findFree, if_pos hmemT, hnext]
    have hchain := findFree_chain T ((List.range (i0 + 1)).map (expectedName T))
      i0 1 (i0 + 2)
      (fun k hk1 hk2 => by
        obtain ⟨k0, rfl⟩ : ∃ k0, k = k0 + 1 := ⟨k - 1, by omega⟩
        rw [← expectedName_succ_eq]
        exact mem_expected.mpr (by omega))
      (by
        rw [show (1 + i0 : Nat) = i0 + 1 from by omega, ← expectedName_succ_eq]
        rw [mem_expected]
        omega)
      (by omega)
    rw [hchain, show (1 + i0 : Nat) = i0 + 1 from by omega, ← expectedName_succ_eq]

theorem setModuleName_last {l1 : BundledExports} {m : JStr} (n r : JStr)
    (hm : lookupA l1 m = none) :
    setModuleName (l1 ++ [(m, [])]) m n r = l1 ++ [(m, [(n, r)])] := by
  induction l1 with
  | nil => simp [setModuleName, setA]
  | cons p t iht =>
    obtain ⟨a, mp0⟩ := p
    rw [lookupA] at hm
    by_cases ha : a = m
    · rw [if_pos ha] at hm
      simp at hm
    · rw [if_neg ha] at hm
      rw [List.cons_append, setModuleName, if_neg ha, iht hm, List.cons_append]

theorem computeTrial_plain {m nm : JStr} (h1 : nm ≠ js "default") (h2 : nm ≠ ['*']) :
    computeTrialName m nm = sanitize nm := by
  simp only [computeTrialName]
  rw [if_neg h1, if_neg h2]

theorem collider_run {nm : JStr} (h1 : nm ≠ js "default") (h2 : nm ≠ ['*'])
    (hT : sanitize nm ≠ []) (hD : hasDollarNum (sanitize nm) = false) :
    ∀ (ms done : List JStr), (done ++ ms).Nodup →
      runCalls (colliderState nm (sanitize nm) done 0) (ms.map (fun m => (m, nm))) =
        some ((List.range ms.length).map (fun i => expectedName (sanitize nm) (done.length + i)),
          colliderState nm (sanitize nm) (done ++ ms) 0) := by
  intro ms
  induction ms with
  | nil =>
    intro done hnd
    rw [List.append_nil, List.map_nil, runCalls]
    rfl
  | cons m ms ihms =>
    intro done hnd
    have hmdone : m ∉ done := by
      rw [List.nodup_append] at hnd
      exact fun hc => hnd.2.2 hc (List.mem_cons_self m ms)
    have hlook : lookupA (colliderState nm (sanitize nm) done 0) m = none :=
      colliderState_lookup_none nm (sanitize nm) 0 hmdone
    have htaken : allAssigned (colliderState nm (sanitize nm) done 0 ++ [(m, [])]) =
        (List.range done.length).map (expectedName (sanitize nm)) := by
      rw [allAssigned_ensure, colliderState_assigned]
      apply List.map_congr_left
      intro i _
      rw [Nat.zero_add]
    rw [List.map_cons, runCalls, getOrSet_module_none nm hlook]
    simp only [assignFresh]
    rw [computeTrial_plain h1 h2, htaken, List.length_map, List.length_range,
      findFree_expected hT hD done.length]
    dsimp only
    rw [setModuleName_last nm (expectedName (sanitize nm) done.length) hlook]
    have hstate : colliderState nm (sanitize nm) done 0 ++
        [(m, [(nm, expectedName (sanitize nm) done.length)])] =
        colliderState nm (sanitize nm) (done ++ [m]) 0 := by
      rw [colliderState_append, Nat.zero_add]
      rfl
    rw [hstate]
    have hnd2 : ((done ++ [m]) ++ ms).Nodup := by
      rw [List.append_assoc, List.singleton_append]
      exact hnd
    rw [ihms (done ++ [m]) hnd2]
    dsimp only
    rw [Option.some.injEq, Prod.mk.injEq]
    constructor
    · rw [List.length_cons, List.range_succ_eq_map, List.map_cons, List.map_map]
      rw [Nat.add_zero]
      congr 1
      apply List.map_congr_left
      intro i _
      show expectedName (sanitize nm) ((done ++ [m]).length + i) =
        expectedName (sanitize nm) (done.length + (i + 1))
      rw [List.length_append, List.length_cons, List.length_nil]
      congr 1
      omega
    · rw [List.append_assoc, List.singleton_append]

/-- **C6**: when colliding requests with the same export name (whose sanitized
trial name carries no `$<integer>` suffix) are made for pairwise-distinct
modules of one bundle, the assigned names carry the suffixes `$1, $2, $3, …`
in request order: the `i`-th call returns the trial name with suffix `$i`
(`expectedName` spells that out), each step having been produced by the
increment-or-append-`$1` mutation of the collision loop. -/
theorem claim_C6_collision_suffix_sequence
    (ms : List JStr) (nm : JStr) (hnd : ms.Nodup)
    (h1 : nm ≠ js "default") (h2 : nm ≠ ['*'])
    (h3 : sanitize nm ≠ []) (h4 : hasDollarNum (sanitize nm) = false) :
    runCalls [] (ms.map (fun m => (m, nm))) =
      some ((List.range ms.length).map (expectedName (sanitize nm)),
        colliderState nm (sanitize nm) ms 0) ∧
    expectedName (sanitize nm) 0 = sanitize nm ∧
    ∀ i, expectedName (sanitize nm) (i + 1) = sanitize nm ++ '$' :: natDigs (i + 1) := by
  refine ⟨?_, rfl, fun i => rfl⟩
  have hrun := collider_run h1 h2 h3 h4 ms [] (by simpa using hnd)
  rw [show colliderState nm (sanitize nm) [] 0 = [] from rfl] at hrun
  rw [List.nil_append] at hrun
  rw [hrun, Option.some.injEq, Prod.mk.injEq]
  refine ⟨?_, rfl⟩
  apply List.map_congr_left
  intro i _
  rw [List.length_nil, Nat.zero_add]

theorem claim_C6_collision_suffix_sequence_witness :
    runCalls [] (([['a'], ['b'], ['c']] : List JStr).map (fun m => (m, (['x'] : JStr)))) =
      some ((List.range ([['a'], ['b'], ['c']] : List JStr).length).map
          (expectedName (sanitize ['x'])),
        colliderState ['x'] (sanitize ['x']) [['a'], ['b'], ['c']] 0) ∧
    expectedName (sanitize ['x']) 0 = sanitize ['x'] ∧
    ∀ i, expectedName (sanitize ['x']) (i + 1) = sanitize ['x'] ++ '$' :: natDigs (i + 1) :=
  claim_C6_collision_suffix_sequence [['a'], ['b'], ['c']] ['x']
    (by decide) (by decide) (by decide) (by decide) (by decide)

end EsModuleUtils

/-!
## ProjectConverter

Model of the `ProjectConverter` class (second source file region).  The
scanner, url-handler and `DocumentConverter` are external collaborators that
are not part of the sources; per the spec they are deterministic and
scanning is idempotent, so they are modelled as pure functions bundled in
`Externals`.  `console.assert` does not throw: it only prints its message
when the condition is false, and execution continues; the printed messages
are tracked in `consoleErrors`.
-/

namespace ProjectConverter

open EsModuleUtils

/-- The scanner's classification of a file (`scanResult.type`). -/
inductive ScanKind where
  | jsModule
  | htmlDocument
  | deleteFile
deriving DecidableEq

/-- Modelled from the spec: a conversion result record (`ConversionResult`
from `./js-module`, not among the sources): original document URL, converted
file path, optional output content (absent = no textual change to write), and
the delete-original flag. -/
structure ConversionResult where
  originalUrl : String
  convertedFilePath : String
  output : Option String
  deleteOriginal : Bool
deriving DecidableEq

/-- A document handed to `convertDocument`: its analyzer kinds and an
identifier standing for the underlying parsed document. -/
structure Document where
  kinds : List String
  docId : String
deriving DecidableEq

/-- Modelled from the spec: the external collaborators (scanner, url handler,
document-rewriting capability, package listing).  The spec requires scanning
to be idempotent and rewriting to be deterministic, so they are pure
functions. -/
structure Externals where
  getDocumentUrl : Document → String
  fileType : String → Option ScanKind
  convertJsModule : Document → List ConversionResult
  convertTopLevelHtmlDocument : Document → ConversionResult
  createDeleteResult : Document → ConversionResult
  packageDocuments : String → List Document

/-- The converter's mutable state: the results cache (insertion-ordered map
from original document URL to conversion record) and the console's error
log. -/
structure ConverterState where
  results : List (String × ConversionResult)
  consoleErrors : List String
deriving DecidableEq

/-- Result of a call: `error = some msg` models a thrown `Error`, and `state`
is the converter's state when control leaves the method. -/
structure ConvertOutcome where
  error : Option String
  state : ConverterState
deriving DecidableEq

/-- The `console.assert` message of `convertDocument` (the `${document.kinds}`
interpolation of a JavaScript `Set` prints as `[object Set]`). -/
def assertionMessage : String :=
  "convertDocument() must be called with an HTML document, but got [object Set]"

/-- `ProjectConverter.convertDocument` (source lines 241-274): a failed
`console.assert` logs and execution continues; the scan is idempotent and its
classification is `ext.fileType`; a missing classification throws; otherwise
the produced conversion records are stored keyed by their own original URL. -/
def convertDocument (ext : Externals) (st : ConverterState) (doc : Document) : ConvertOutcome :=
  let st1 := if doc.kinds.contains "html-document" then st
    else { st with consoleErrors := st.consoleErrors ++ [assertionMessage] }
  let documentUrl := ext.getDocumentUrl doc
  match ext.fileType documentUrl with
  | none => { error := some ("File not found during scan: " ++ documentUrl), state := st1 }
  | some ScanKind.jsModule =>
    { error := none,
      state := { st1 with results :=
        (ext.convertJsModule doc).foldl (fun rs nm => setA rs nm.originalUrl nm) st1.results } }
  | some ScanKind.htmlDocument =>
    let nm := ext.convertTopLevelHtmlDocument doc
    { error := none, state := { st1 with results := setA st1.results nm.originalUrl nm } }
  | some ScanKind.deleteFile =>
    let nm := ext.createDeleteResult doc
    { error := none, state := { st1 with results := setA st1.results nm.originalUrl nm } }

/-- The loop body of `convertPackage`: convert each document, stopping at the
first thrown failure (an exception aborts the `for` loop and propagates). -/
def convertDocuments (ext : Externals) : ConverterState → List Document → ConvertOutcome
  | st, [] => { error := none, state := st }
  | st, d :: ds =>
    let o := convertDocument ext st d
    match o.error with
    | some e => { error := some e, state := o.state }
    | none => convertDocuments ext o.state ds

/-- `ProjectConverter.convertPackage` (source lines 228-235): scan the package
(idempotent, already reflected in `ext.fileType`), then convert each of its
documents. -/
def convertPackage (ext : Externals) (st : ConverterState) (pkg : String) : ConvertOutcome :=
  convertDocuments ext st (ext.packageDocuments pkg)

/-- The conversion records `convertDocument` would store for a document, per
its classification. -/
def documentRecords (ext : Externals) (doc : Document) : List ConversionResult :=
  match ext.fileType (ext.getDocumentUrl doc) with
  | none => []
  | some ScanKind.jsModule => ext.convertJsModule doc
  | some ScanKind.htmlDocument => [ext.convertTopLevelHtmlDocument doc]
  | some ScanKind.deleteFile => [ext.createDeleteResult doc]

/-- The cache writes of a document, as (key, value) pairs. -/
def docPairs (ext : Externals) (doc : Document) : List (String × ConversionResult) :=
  (documentRecords ext doc).map (fun nm => (nm.originalUrl, nm))

/-! ### Error-path and assertion behaviour (claims C4 and C7) -/

/-- **C4** (amended): invoking `convertDocument` on a document that is not an
html-document trips the `console.assert`, which only logs its message to the
console — execution continues with the normal conversion path, and the call
throws exactly when the later scan-classification lookup fails, not at the
contract check. -/
theorem claim_C4_amended_assert_logs_and_continues
    (ext : Externals) (st : ConverterState) (doc : Document)
    (h : doc.kinds.contains "html-document" = false) :
    (convertDocument ext st doc).state.consoleErrors = st.consoleErrors ++ [assertionMessage] ∧
    ((convertDocument ext st doc).error = none ↔
      (ext.fileType (ext.getDocumentUrl doc)).isSome) := by
  have h2 : "html-document" ∉ doc.kinds := by simpa using h
  match hft : ext.fileType (ext.getDocumentUrl doc) with
  | none => simp [convertDocument, hft, h2]
  | some ScanKind.jsModule => simp [convertDocument, hft, h2]
  | some ScanKind.htmlDocument => simp [convertDocument, hft, h2]
  | some ScanKind.deleteFile => simp [convertDocument, hft, h2]

/-- A non-top-level document used by the concrete checks. -/
def docNoHtml : Document := { kinds := ["document"], docId := "a.html" }

/-- A package html document classified as a js-module by the scanner. -/
def docA : Document := { kinds := ["html-document"], docId := "a.html" }

/-- A package html document classified for deletion by the scanner. -/
def docB : Document := { kinds := ["html-document"], docId := "b.html" }

/-- A document the scanner has no classification for. -/
def docC : Document := { kinds := ["html-document"], docId := "c.html" }

/-- Concrete externals used by the witnesses: a two-document package whose
first document fans out to a deleted-and-rewritten module. -/
def extW : Externals where
  getDocumentUrl := fun d => d.docId
  fileType := fun u =>
    if u = "a.html" then some ScanKind.jsModule
    else if u = "b.html" then some ScanKind.deleteFile
    else none
  convertJsModule := fun d =>
    if d.docId = "a.html" then
      [{ originalUrl := "a.html", convertedFilePath := "a.js",
         output := some "code", deleteOriginal := true }]
    else []
  convertTopLevelHtmlDocument := fun d =>
    { originalUrl := d.docId, convertedFilePath := d.docId,
      output := some "html", deleteOriginal := false }
  createDeleteResult := fun d =>
    { originalUrl := d.docId, convertedFilePath := d.docId,
      output := none, deleteOriginal := true }
  packageDocuments := fun p => if p = "pkg" then [docA, docB] else []

theorem claim_C4_amended_assert_logs_and_continues_witness :
    (convertDocument extW { results := [], consoleErrors := [] } docNoHtml).state.consoleErrors =
      ({ results := [], consoleErrors := [] } : ConverterState).consoleErrors ++
        [assertionMessage] ∧
    ((convertDocument extW { results := [], consoleErrors := [] } docNoHtml).error = none ↔
      (extW.fileType (extW.getDocumentUrl docNoHtml)).isSome) :=
  claim_C4_amended_assert_logs_and_continues extW { results := [], consoleErrors := [] }
    docNoHtml (by decide)

/-- **C4** counterexample: `convertDocument` invoked on a non-html document is
*not* surfaced to the caller as a thrown failure — `console.assert` merely
logs, the call proceeds through the normal conversion path and returns
without error (here it even converts and caches the document). -/
theorem claim_C4_counterexample :
    docNoHtml.kinds.contains "html-document" = false ∧
    (convertDocument extW { results := [], consoleErrors := [] } docNoHtml).error = none ∧
    (convertDocument extW { results := [], consoleErrors := [] } docNoHtml).state.consoleErrors =
      [assertionMessage] := by
  decide

/-- **C7**: when a document's URL has no classification in the scan results,
`convertDocument` throws an error carrying the offending URL, and the results
cache is left exactly as it was. -/
theorem claim_C7_missing_classification_throws
    (ext : Externals) (st : ConverterState) (doc : Document)
    (h : ext.fileType (ext.getDocumentUrl doc) = none) :
    (convertDocument ext st doc).error =
      some ("File not found during scan: " ++ ext.getDocumentUrl doc) ∧
    (convertDocument ext st doc).state.results = st.results := by
  by_cases hk : "html-document" ∈ doc.kinds <;> simp [convertDocument, h, hk]

theorem claim_C7_missing_classification_throws_witness :
    (convertDocument extW { results := [], consoleErrors := [] } docC).error =
      some ("File not found during scan: " ++ extW.getDocumentUrl docC) ∧
    (convertDocument extW { results := [], consoleErrors := [] } docC).state.results =
      ({ results := [], consoleErrors := [] } : ConverterState).results :=
  claim_C7_missing_classification_throws extW { results := [], consoleErrors := [] }
    docC (by decide)

/-! ### Idempotence of document conversion (claim C5) -/

/-- Value of the last write with key `k` in a list of (key, value) pairs. -/
def lastVal {κ α : Type} [DecidableEq κ] : List (κ × α) → κ → Option α
  | [], _ => none
  | (a, b) :: t, k =>
    match lastVal t k with
    | some v => some v
    | none => if a = k then some b else none

theorem lookupA_foldl_set {κ α : Type} [DecidableEq κ] :
    ∀ (l M : List (κ × α)) (k : κ),
      lookupA (l.foldl (fun m p => setA m p.1 p.2) M) k =
        match lastVal l k with
        | some v => some v
        | none => lookupA M k := by
  intro l
  induction l with
  | nil => intro M k; rfl
  | cons p t iht =>
    obtain ⟨a, b⟩ := p
    intro M k
    rw [List.foldl_cons, iht (setA M a b) k, lastVal]
    match hlv : lastVal t k with
    | some v => rfl
    | none =>
      rw [lookupA_setA]
      by_cases hka : k = a
      · rw [if_pos hka, if_pos hka.symm]
      · rw [if_neg hka, if_neg (fun he : a = k => hka he.symm)]

theorem length_setA {κ α : Type} [DecidableEq κ] :
    ∀ (l : List (κ × α)) (k : κ) (v : α),
      (setA l k v).length = if (lookupA l k).isSome then l.length else l.length + 1 := by
  intro l
  induction l with
  | nil => intro k v; rfl
  | cons p t iht =>
    obtain ⟨a, b⟩ := p
    intro k v
    rw [setA, lookupA]
    by_cases hak : a = k
    · rw [if_pos hak, if_pos hak]
      simp
    · rw [if_neg hak, if_neg hak]
      simp only [List.length_cons, iht k v]
      by_cases hs : (lookupA t k).isSome <;> simp [hs]

theorem foldl_set_length_of_isSome {κ α : Type} [DecidableEq κ] :
    ∀ (l M : List (κ × α)), (∀ p ∈ l, (lookupA M p.1).isSome) →
      (l.foldl (fun m p => setA m p.1 p.2) M).length = M.length := by
  intro l
  induction l with
  | nil => intro M _; rfl
  | cons p t iht =>
    obtain ⟨a, b⟩ := p
    intro M hM
    have h1 : (lookupA M a).isSome := hM (a, b) (List.mem_cons_self _ _)
    rw [List.foldl_cons, iht (setA M a b) ?_, length_setA, if_pos h1]
    intro p hp
    rw [lookupA_setA]
    by_cases hpa : p.1 = a
    · rw [if_pos hpa]
      rfl
    · rw [if_neg hpa]
      exact hM p (List.mem_cons_of_mem _ hp)

theorem lastVal_isSome_of_mem {κ α : Type} [DecidableEq κ] :
    ∀ {l : List (κ × α)} {p : κ × α}, p ∈ l → (lastVal l p.1).isSome := by
  intro l
  induction l with
  | nil => intro p h; simp at h
  | cons q t iht =>
    obtain ⟨a, b⟩ := q
    intro p hp
    rw [lastVal]
    match hlv : lastVal t p.1 with
    | some v => rfl
    | none =>
      rcases List.mem_cons.mp hp with he | hm
      · rw [if_pos (by rw [he])]
        rfl
      · have h2 := iht hm
        rw [hlv] at h2
        simp at h2

theorem convertDocument_results (ext : Externals) (st : ConverterState) (doc : Document) :
    (convertDocument ext st doc).state.results =
      (docPairs ext doc).foldl (fun rs p => setA rs p.1 p.2) st.results := by
  by_cases hk : "html-document" ∈ doc.kinds <;>
    match hft : ext.fileType (ext.getDocumentUrl doc) with
    | none => simp [convertDocument, docPairs, documentRecords, hft, hk, List.foldl_map]
    | some ScanKind.jsModule =>
      simp [convertDocument, docPairs, documentRecords, hft, hk, List.foldl_map]
    | some ScanKind.htmlDocument =>
      simp [convertDocument, docPairs, documentRecords, hft, hk, List.foldl_map]
    | some ScanKind.deleteFile =>
      simp [convertDocument, docPairs, documentRecords, hft, hk, List.foldl_map]

theorem post_lookup (ext : Externals) (st : ConverterState) (d : Document) :
    ∀ k v, lastVal (docPairs ext d) k = some v →
      lookupA ((convertDocument ext st d).state).results k = some v := by
  intro k v hlv
  rw [convertDocument_results, lookupA_foldl_set, hlv]

theorem preserve_lookup {ext : Externals} {d e : Document} {st : ConverterState}
    (hdisj : ∀ k, (lastVal (docPairs ext d) k).isSome → lastVal (docPairs ext e) k = none)
    (hP : ∀ k v, lastVal (docPairs ext d) k = some v → lookupA st.results k = some v) :
    ∀ k v, lastVal (docPairs ext d) k = some v →
      lookupA ((convertDocument ext st e).state).results k = some v := by
  intro k v hlv
  rw [convertDocument_results, lookupA_foldl_set, hdisj k (by rw [hlv]; rfl)]
  exact hP k v hlv

theorem convertDocuments_preserve {ext : Externals} {d : Document} : ∀ {ds : List Document},
    (∀ e ∈ ds, e = d ∨ ∀ k, (lastVal (docPairs ext d) k).isSome →
      lastVal (docPairs ext e) k = none) →
    ∀ {st stp : ConverterState}, convertDocuments ext st ds = { error := none, state := stp } →
      (∀ k v, lastVal (docPairs ext d) k = some v → lookupA st.results k = some v) →
      ∀ k v, lastVal (docPairs ext d) k = some v → lookupA stp.results k = some v := by
  intro ds
  induction ds with
  | nil =>
    intro _ st stp hrun hP
    rw [convertDocuments, ConvertOutcome.mk.injEq] at hrun
    rw [← hrun.2]
    exact hP
  | cons e rest ihr =>
    intro hd st stp hrun hP
    rw [convertDocuments] at hrun
    match herr : (convertDocument ext st e).error with
    | some msg =>
      rw [herr] at hrun
      rw [ConvertOutcome.mk.injEq] at hrun
      simp at hrun
    | none =>
      rw [herr] at hrun
      refine ihr (fun e2 he2 => hd e2 (List.mem_cons_of_mem _ he2)) hrun ?_
      rcases hd e (List.mem_cons_self _ _) with he | hdisj
      · rw [he]
        exact post_lookup ext st d
      · exact preserve_lookup hdisj hP

theorem convertDocuments_inv {ext : Externals} : ∀ {ds : List Document},
    (∀ d1 ∈ ds, ∀ d2 ∈ ds, d1 ≠ d2 → ∀ k,
      (lastVal (docPairs ext d1) k).isSome → lastVal (docPairs ext d2) k = none) →
    ∀ {st stp : ConverterState},
      convertDocuments ext st ds = { error := none, state := stp } →
      ∀ d ∈ ds, ∀ k v, lastVal (docPairs ext d) k = some v →
        lookupA stp.results k = some v := by
  intro ds
  induction ds with
  | nil =>
    intro _ st stp _ d hd
    simp at hd
  | cons d0 rest ihr =>
    intro hdisj st stp hrun d hd
    rw [convertDocuments] at hrun
    match herr : (convertDocument ext st d0).error with
    | some msg =>
      rw [herr] at hrun
      rw [ConvertOutcome.mk.injEq] at hrun
      simp at hrun
    | none =>
      rw [herr] at hrun
      rcases List.mem_cons.mp hd with he | hm
      · subst he
        refine convertDocuments_preserve ?_ hrun (post_lookup ext st d)
        intro e he2
        by_cases hede : e = d
        · exact Or.inl hede
        · exact Or.inr (hdisj d hd e (List.mem_cons_of_mem _ he2)
            (fun hc => hede hc.symm))
      · exact ihr
          (fun d1 h1 d2 h2 => hdisj d1 (List.mem_cons_of_mem _ h1) d2 (List.mem_cons_of_mem _ h2))
          hrun d hm

/-- **C5**: re-invoking `convertDocument` on a document whose records are
already cached changes no cached entry — looking up any key gives the same
record and the cache size is unchanged.  In particular, after `convertPackage`
succeeds, re-invoking `convertDocument` on any member document (whose records
are keyed disjointly from the other members', per the conversion-result data
model) leaves the cache exactly as it was — no double conversion. -/
theorem claim_C5_convertDocument_idempotent
    (ext : Externals) (st : ConverterState) (doc : Document) (pkg : String)
    (hdisj : ∀ d1 ∈ ext.packageDocuments pkg, ∀ d2 ∈ ext.packageDocuments pkg, d1 ≠ d2 →
      ∀ k, (lastVal (docPairs ext d1) k).isSome → lastVal (docPairs ext d2) k = none) :
    (∀ k, lookupA ((convertDocument ext ((convertDocument ext st doc).state) doc).state).results k =
      lookupA ((convertDocument ext st doc).state).results k) ∧
    ((convertDocument ext ((convertDocument ext st doc).state) doc).state).results.length =
      ((convertDocument ext st doc).state).results.length ∧
    ∀ stp, convertPackage ext st pkg = { error := none, state := stp } →
      ∀ d ∈ ext.packageDocuments pkg,
        (∀ k, lookupA ((convertDocument ext stp d).state).results k = lookupA stp.results k) ∧
        ((convertDocument ext stp d).state).results.length = stp.results.length := by
  refine ⟨?_, ?_, ?_⟩
  · intro k
    rw [convertDocument_results ext ((convertDocument ext st doc).state) doc, lookupA_foldl_set]
    match hlv : lastVal (docPairs ext doc) k with
    | some v => exact (post_lookup ext st doc k v hlv).symm
    | none => rfl
  · rw [convertDocument_results ext ((convertDocument ext st doc).state) doc]
    apply foldl_set_length_of_isSome
    intro p hp
    have h1 := lastVal_isSome_of_mem hp
    match hlv : lastVal (docPairs ext doc) p.1 with
    | none => rw [hlv] at h1; simp at h1
    | some v => rw [post_lookup ext st doc p.1 v hlv]; rfl
  · intro stp hpkg d hd
    have hinv := convertDocuments_inv hdisj hpkg d hd
    constructor
    · intro k
      rw [convertDocument_results, lookupA_foldl_set]
      match hlv : lastVal (docPairs ext d) k with
      | some v => exact (hinv k v hlv).symm
      | none => rfl
    · rw [convertDocument_results]
      apply foldl_set_length_of_isSome
      intro p hp
      have h1 := lastVal_isSome_of_mem hp
      match hlv : lastVal (docPairs ext d) p.1 with
      | none => rw [hlv] at h1; simp at h1
      | some v => rw [hinv p.1 v hlv]; rfl

theorem claim_C5_convertDocument_idempotent_witness :
    (∀ k, lookupA ((convertDocument extW
        ((convertDocument extW { results := [], consoleErrors := [] } docA).state)
        docA).state).results k =
      lookupA ((convertDocument extW { results := [], consoleErrors := [] } docA).state).results k) ∧
    ((convertDocument extW
        ((convertDocument extW { results := [], consoleErrors := [] } docA).state)
        docA).state).results.length =
      ((convertDocument extW { results := [], consoleErrors := [] } docA).state).results.length ∧
    ∀ stp, convertPackage extW { results := [], consoleErrors := [] } "pkg" =
        { error := none, state := stp } →
      ∀ d ∈ extW.packageDocuments "pkg",
        (∀ k, lookupA ((convertDocument extW stp d).state).results k = lookupA stp.results k) ∧
        ((convertDocument extW stp d).state).results.length = stp.results.length :=
  claim_C5_convertDocument_idempotent extW { results := [], consoleErrors := [] } docA "pkg"
    (by
      intro d1 h1 d2 h2 hne k hk
      have hl : extW.packageDocuments "pkg" = [docA, docB] := by decide
      rw [hl] at h1 h2
      have h1b : d1 = docA ∨ d1 = docB := by
        rcases List.mem_cons.mp h1 with he | hm
        · exact Or.inl he
        · rw [List.mem_singleton] at hm
          exact Or.inr hm
      have h2b : d2 = docA ∨ d2 = docB := by
        rcases List.mem_cons.mp h2 with he | hm
        · exact Or.inl he
        · rw [List.mem_singleton] at hm
          exact Or.inr hm
      rcases h1b with rfl | rfl <;> rcases h2b with rfl | rfl
      · exact absurd rfl hne
      · have ha : lastVal (docPairs extW docA) k =
            if "a.html" = k then
              some { originalUrl := "a.html", convertedFilePath := "a.js",
                     output := some "code", deleteOriginal := true } else none := rfl
        by_cases hka : ("a.html" : String) = k
        · rw [← hka]
          decide
        · rw [ha, if_neg hka] at hk
          simp at hk
      · have hb : lastVal (docPairs extW docB) k =
            if "b.html" = k then
              some { originalUrl := "b.html", convertedFilePath := "b.html",
                     output := none, deleteOriginal := true } else none := rfl
        by_cases hkb : ("b.html" : String) = k
        · rw [← hkb]
          decide
        · rw [hb, if_neg hkb] at hk
          simp at hk
      · exact absurd rfl hne)

end ProjectConverter

/-!
## Module export-name collection

Tagged-variant model of the babel syntax-node kinds actually dispatched on by
`getModuleExportIdentifiers` (array pattern, class/function declaration,
variable declarator, export specifier, identifier, object pattern, object
property, variable declaration); any other node kind contributes no
identifiers.  `nullNode` stands for babel's `null` children (holes in array
patterns, the absent `declaration` of a specifier-only export).
-/

namespace EsModuleUtils

theorem list_sizeOf_pos {α : Type} [SizeOf α] (l : List α) : 0 < sizeOf l := by
  cases l with
  | nil => simp
  | cons a t => simp

inductive JsNode where
  | identifier (name : String)
  | arrayPattern (elements : List JsNode)
  | objectPattern (properties : List JsNode)
  | objectProperty (key : JsNode) (value : JsNode)
  | variableDeclarator (id : JsNode)
  | variableDeclaration (declarations : List JsNode)
  | functionDeclaration (id : JsNode)
  | classDeclaration (id : JsNode)
  | exportSpecifier (localName : JsNode) (exported : JsNode)
  | nullNode
  | otherNode

/-- `getModuleExportIdentifiers` (source lines 110-137): walks the provided
nodes in order; declarations recurse into their bound identifier/pattern, an
export specifier recurses into its *exported* name, object properties recurse
into their value (the binding of a renamed destructuring), identifiers
contribute their name, unhandled kinds contribute nothing. -/
def getModuleExportIdentifiers : List JsNode → List String
  | [] => []
  | node :: rest =>
    (match node with
     | JsNode.arrayPattern els => getModuleExportIdentifiers els
     | JsNode.classDeclaration id => getModuleExportIdentifiers [id]
     | JsNode.functionDeclaration id => getModuleExportIdentifiers [id]
     | JsNode.variableDeclarator id => getModuleExportIdentifiers [id]
     | JsNode.exportSpecifier _ exported => getModuleExportIdentifiers [exported]
     | JsNode.identifier name => [name]
     | JsNode.objectPattern props => getModuleExportIdentifiers props
     | JsNode.objectProperty _ value => getModuleExportIdentifiers [value]
     | JsNode.variableDeclaration decls => getModuleExportIdentifiers decls
     | JsNode.nullNode => []
     | JsNode.otherNode => []) ++ getModuleExportIdentifiers rest
termination_by l => sizeOf l
decreasing_by
  all_goals simp_wf
  all_goals (have hp := list_sizeOf_pos rest)
  all_goals omega

/-- A top-level statement of a module, as far as the traversal of
`getModuleExportNames` observes it. -/
inductive ModuleItem where
  | exportNamedDeclaration (specifiers : List JsNode) (declaration : JsNode)
  | exportDefaultDeclaration
  | otherStatement

/-- The names pushed by the `ExportNamedDeclaration` visitor, in traversal
order: specifiers first, then the declaration (source lines 93-101). -/
def exportedNamesOf : List ModuleItem → List String
  | [] => []
  | ModuleItem.exportNamedDeclaration specifiers declaration :: rest =>
    getModuleExportIdentifiers specifiers ++ getModuleExportIdentifiers [declaration] ++
      exportedNamesOf rest
  | ModuleItem.exportDefaultDeclaration :: rest => exportedNamesOf rest
  | ModuleItem.otherStatement :: rest => exportedNamesOf rest

/-- `new Set(exportedNames)`: insertion-ordered de-duplication. -/
def insertionDedup (l : List String) : List String :=
  l.foldl (fun acc x => if x ∈ acc then acc else acc ++ [x]) []

/-- `getModuleExportNames` (source lines 89-104). -/
def getModuleExportNames (items : List ModuleItem) : List String :=
  insertionDedup (exportedNamesOf items)

theorem insertionDedup_nodup_aux : ∀ (l : List String) (acc : List String), acc.Nodup →
    (l.foldl (fun acc x => if x ∈ acc then acc else acc ++ [x]) acc).Nodup := by
  intro l
  induction l with
  | nil => intro acc h; exact h
  | cons x t iht =>
    intro acc h
    rw [List.foldl_cons]
    by_cases hx : x ∈ acc
    · rw [if_pos hx]
      exact iht acc h
    · rw [if_neg hx]
      exact iht _ (nodup_append_singleton h hx)

theorem insertionDedup_nodup (l : List String) : (insertionDedup l).Nodup :=
  insertionDedup_nodup_aux l [] (by simp)

/-- `export const a = 1, {b, c: d} = obj;` -/
def exampleModule1 : List ModuleItem :=
  [ModuleItem.exportNamedDeclaration []
    (JsNode.variableDeclaration
      [JsNode.variableDeclarator (JsNode.identifier "a"),
       JsNode.variableDeclarator
         (JsNode.objectPattern
           [JsNode.objectProperty (JsNode.identifier "b") (JsNode.identifier "b"),
            JsNode.objectProperty (JsNode.identifier "c") (JsNode.identifier "d")])])]

/-- `export {x as y};` (no declaration: babel's `declaration` is null). -/
def exampleModule2 : List ModuleItem :=
  [ModuleItem.exportNamedDeclaration
    [JsNode.exportSpecifier (JsNode.identifier "x") (JsNode.identifier "y")]
    JsNode.nullNode]

/-- `export function f() {}; export class C {}; export const [p,,q] = arr;` -/
def exampleModule3 : List ModuleItem :=
  [ModuleItem.exportNamedDeclaration [] (JsNode.functionDeclaration (JsNode.identifier "f")),
   ModuleItem.exportNamedDeclaration [] (JsNode.classDeclaration (JsNode.identifier "C")),
   ModuleItem.exportNamedDeclaration []
     (JsNode.variableDeclaration
       [JsNode.variableDeclarator
         (JsNode.arrayPattern
           [JsNode.identifier "p", JsNode.nullNode, JsNode.identifier "q"])])]

/-- `export const z = 1; export {w as z};` — the name `z` is produced twice. -/
def exampleModule4 : List ModuleItem :=
  [ModuleItem.exportNamedDeclaration []
     (JsNode.variableDeclaration [JsNode.variableDeclarator (JsNode.identifier "z")]),
   ModuleItem.exportNamedDeclaration
     [JsNode.exportSpecifier (JsNode.identifier "w") (JsNode.identifier "z")]
     JsNode.nullNode]

/-- **C9**: `getModuleExportNames` collects every exported identifier of the
module's named-export declarations — identifiers bound by function, class and
variable declarations including destructured array and object patterns (a
renamed object-pattern binding contributes the binding name, `d` not `c`),
and for export-specifier lists the exported alias (`y`), not the local name
(`x`) — and returns a set holding each name at most once. -/
theorem claim_C9_module_export_names :
    getModuleExportNames exampleModule1 = ["a", "b", "d"] ∧
    getModuleExportNames exampleModule2 = ["y"] ∧
    getModuleExportNames exampleModule3 = ["f", "C", "p", "q"] ∧
    getModuleExportNames exampleModule4 = ["z"] ∧
    ∀ items : List ModuleItem, (getModuleExportNames items).Nodup := by
  refine ⟨?_, ?_, ?_, ?_, fun items => insertionDedup_nodup (exportedNamesOf items)⟩ <;>
    simp [getModuleExportNames, exampleModule1, exampleModule2, exampleModule3, exampleModule4,
      exportedNamesOf, getModuleExportIdentifiers, insertionDedup]

end EsModuleUtils

namespace ProjectConverter

open EsModuleUtils

/-! ### The results accessor (claims C8 and C10) -/

/-- The fixed, hardcoded exclusion set of already-ES6 files (source lines
188-193). -/
def excludeFromResults : List String :=
  ["shadycss/entrypoints/apply-shim.js",
   "bower_components/shadycss/entrypoints/apply-shim.js",
   "shadycss/entrypoints/custom-style-interface.js",
   "bower_components/shadycss/entrypoints/custom-style-interface.js"]

/-- `ProjectConverter.getResults` (source lines 281-301): one pass over the
results cache; excluded originals contribute nothing; a delete flag emits the
`(originalUrl, undefined)` tombstone; present output emits
`(convertedFilePath, output)`. -/
def getResults (st : ConverterState) : List (String × Option String) :=
  st.results.foldl
    (fun results p =>
      if excludeFromResults.contains p.2.originalUrl then results
      else
        let results1 :=
          if p.2.deleteOriginal then setA results p.2.originalUrl none else results
        match p.2.output with
        | some out => setA results1 p.2.convertedFilePath (some out)
        | none => results1)
    []

/-- The entries a single conversion record contributes to `getResults`, in
emission order. -/
def recordEntries (nm : ConversionResult) : List (String × Option String) :=
  if excludeFromResults.contains nm.originalUrl then []
  else
    (if nm.deleteOriginal then [(nm.originalUrl, (none : Option String))] else []) ++
    (match nm.output with
     | some out => [(nm.convertedFilePath, some out)]
     | none => [])

theorem getResults_step (results : List (String × Option String)) (nm : ConversionResult) :
    (if excludeFromResults.contains nm.originalUrl then results
     else
       let results1 := if nm.deleteOriginal then setA results nm.originalUrl none else results
       match nm.output with
       | some out => setA results1 nm.convertedFilePath (some out)
       | none => results1) =
    (recordEntries nm).foldl (fun acc q => setA acc q.1 q.2) results := by
  unfold recordEntries
  by_cases he : excludeFromResults.contains nm.originalUrl
  · rw [if_pos he, if_pos he]
    rfl
  · rw [if_neg he, if_neg he]
    by_cases hd : nm.deleteOriginal
    · rw [if_pos hd, if_pos hd]
      match nm.output with
      | some out => rfl
      | none => rfl
    · rw [if_neg hd, if_neg hd]
      match nm.output with
      | some out => rfl
      | none => rfl

theorem getResults_fold (rs : List (String × ConversionResult)) :
    ∀ acc : List (String × Option String),
      rs.foldl
        (fun results p =>
          if excludeFromResults.contains p.2.originalUrl then results
          else
            let results1 :=
              if p.2.deleteOriginal then setA results p.2.originalUrl none else results
            match p.2.output with
            | some out => setA results1 p.2.convertedFilePath (some out)
            | none => results1)
        acc =
      (concatAll ((rs.map (fun p => p.2)).map recordEntries)).foldl
        (fun acc q => setA acc q.1 q.2) acc := by
  induction rs with
  | nil => intro acc; rfl
  | cons p t iht =>
    intro acc
    rw [List.foldl_cons, List.map_cons, List.map_cons, concatAll, List.foldl_append,
      ← getResults_step acc p.2]
    exact iht _

theorem getResults_decomp (st : ConverterState) :
    getResults st =
      (concatAll ((st.results.map (fun p => p.2)).map recordEntries)).foldl
        (fun acc q => setA acc q.1 q.2) [] :=
  getResults_fold st.results []

/-- **C8**: `getResults` is the one-pass fold of each cached record's
entries: an excluded original contributes nothing (even with output content);
a set delete flag contributes the `(originalPath, absent)` tombstone; present
output contributes `(convertedFilePath, content)`; so each record contributes
zero, one, or two entries. -/
theorem claim_C8_getResults_per_record
    (st : ConverterState) (nm : ConversionResult) (c : String) :
    getResults st =
      (concatAll ((st.results.map (fun p => p.2)).map recordEntries)).foldl
        (fun acc q => setA acc q.1 q.2) [] ∧
    (recordEntries nm).length ≤ 2 ∧
    (excludeFromResults.contains nm.originalUrl = true → recordEntries nm = []) ∧
    (excludeFromResults.contains nm.originalUrl = false → nm.deleteOriginal = true →
      (nm.originalUrl, (none : Option String)) ∈ recordEntries nm) ∧
    (excludeFromResults.contains nm.originalUrl = false → nm.output = some c →
      (nm.convertedFilePath, some c) ∈ recordEntries nm) := by
  refine ⟨getResults_decomp st, ?_, ?_, ?_, ?_⟩
  · unfold recordEntries
    by_cases he : nm.originalUrl ∈ excludeFromResults
    · simp [he]
    · have he3 : ¬(excludeFromResults.contains nm.originalUrl = true) := by simpa using he
      rw [if_neg he3, List.length_append]
      have h1 : (if nm.deleteOriginal then
          [(nm.originalUrl, (none : Option String))] else []).length ≤ 1 := by
        by_cases hd : nm.deleteOriginal <;> simp [hd]
      have h2 : (match nm.output with
          | some out => [(nm.convertedFilePath, some out)]
          | none => ([] : List (String × Option String))).length ≤ 1 := by
        match nm.output with
        | some out => simp
        | none => simp
      omega
  · intro he
    have he2 : nm.originalUrl ∈ excludeFromResults := by simpa using he
    simp [recordEntries, he2]
  · intro he hd
    have he2 : nm.originalUrl ∉ excludeFromResults := by simpa using he
    simp [recordEntries, he2, hd]
  · intro he hout
    have he2 : nm.originalUrl ∉ excludeFromResults := by simpa using he
    simp [recordEntries, he2, hout]

/-- Conversion record used by the witnesses: a deleted-and-rewritten file. -/
def recA : ConversionResult :=
  { originalUrl := "a.html", convertedFilePath := "a.js",
    output := some "code", deleteOriginal := true }

theorem claim_C8_getResults_per_record_witness :
    getResults { results := [("a.html", recA)], consoleErrors := [] } =
      (concatAll ((([("a.html", recA)] :
          List (String × ConversionResult)).map (fun p => p.2)).map recordEntries)).foldl
        (fun acc q => setA acc q.1 q.2) [] ∧
    (recordEntries recA).length ≤ 2 ∧
    (excludeFromResults.contains recA.originalUrl = true → recordEntries recA = []) ∧
    (excludeFromResults.contains recA.originalUrl = false → recA.deleteOriginal = true →
      (recA.originalUrl, (none : Option String)) ∈ recordEntries recA) ∧
    (excludeFromResults.contains recA.originalUrl = false → recA.output = some "code" →
      (recA.convertedFilePath, some "code") ∈ recordEntries recA) :=
  claim_C8_getResults_per_record
    { results := [("a.html", recA)], consoleErrors := [] } recA "code"

/-- **C10**: a record that is both a deletion and a write emits the tombstone
first and the content entry second; hence when its converted file path equals
its original path, the returned map holds the output content at that path,
not the deletion tombstone. -/
theorem claim_C10_tombstone_then_content
    (nm : ConversionResult) (c u : String) (logs : List String)
    (hex : excludeFromResults.contains nm.originalUrl = false)
    (hdel : nm.deleteOriginal = true)
    (hout : nm.output = some c)
    (heq : nm.convertedFilePath = nm.originalUrl) :
    recordEntries nm = [(nm.originalUrl, none), (nm.originalUrl, some c)] ∧
    (∀ acc : List (String × Option String),
      lookupA ((recordEntries nm).foldl (fun a q => setA a q.1 q.2) acc) nm.originalUrl =
        some (some c)) ∧
    lookupA (getResults { results := [(u, nm)], consoleErrors := logs }) nm.originalUrl =
      some (some c) := by
  have h1 : recordEntries nm = [(nm.originalUrl, none), (nm.originalUrl, some c)] := by
    have hex2 : nm.originalUrl ∉ excludeFromResults := by simpa using hex
    simp [recordEntries, hex2, hdel, hout, heq]
  have h2 : ∀ acc : List (String × Option String),
      lookupA ((recordEntries nm).foldl (fun a q => setA a q.1 q.2) acc) nm.originalUrl =
        some (some c) := by
    intro acc
    rw [h1]
    show lookupA (setA (setA acc nm.originalUrl none) nm.originalUrl (some c)) nm.originalUrl =
      some (some c)
    rw [lookupA_setA, if_pos rfl]
  refine ⟨h1, h2, ?_⟩
  have h3 : getResults { results := [(u, nm)], consoleErrors := logs } =
      (recordEntries nm).foldl (fun a q => setA a q.1 q.2) [] := by
    rw [getResults_decomp]
    simp [concatAll]
  rw [h3]
  exact h2 []

/-- Conversion record used by the C10 witness: deletion and rewrite at the
same path. -/
def recX : ConversionResult :=
  { originalUrl := "x.html", convertedFilePath := "x.html",
    output := some "out", deleteOriginal := true }

theorem claim_C10_tombstone_then_content_witness :
    recordEntries recX = [(recX.originalUrl, none), (recX.originalUrl, some "out")] ∧
    (∀ acc : List (String × Option String),
      lookupA ((recordEntries recX).foldl (fun a q => setA a q.1 q.2) acc) recX.originalUrl =
        some (some "out")) ∧
    lookupA (getResults { results := [("x.html", recX)], consoleErrors := [] })
        recX.originalUrl = some (some "out") :=
  claim_C10_tombstone_then_content recX "out" "x.html" []
    (by decide) (by decide) (by decide) (by decide)

end ProjectConverter
